import Mathlib

/-!
Verification of the nifty-nesting structural traversal engine
(`nifty_nesting/nifty_nesting.py`) against its specification.

The Python data model is embedded shallowly: `Val` covers the values the
library traverses (the null value `None`, scalars, ordered sequences
`list`/`tuple`, `set`, `dict` with int or string keys, `namedtuple` and
`attrs`-decorated records, and plain non-container objects).  Each library
function becomes an `Except Err`-valued Lean function that mirrors the
source dispatch, including its failure modes (each Python exception kind is
an `Err` constructor).  Python's `sorted` over dict keys is modelled by a
deterministic insertion sort; mixed int/str key lists raise, as in Python 3.
-/

namespace Nifty

/-- Dict keys appearing in the model: Python ints or strings.  These are the
key types exercised by the library's tests; comparison between the two kinds
raises `TypeError` in Python 3, which the model tracks via `sortableKeys`. -/
inductive Key where
  | kint : Int → Key
  | kstr : String → Key
deriving DecidableEq, Repr

/-- A Python value as seen by the traversal engine.  `none` is the distinguished
null value; `obj` stands for an instance of a plain (non-container, non-attrs)
class, tagged by its class name; `ntuple` is a `collections.namedtuple` instance
(type name, field names, field values); `attrs` is an instance of an
`attr`-decorated class (same payload). -/
inductive Val where
  | none  : Val
  | int   : Int → Val
  | str   : String → Val
  | obj   : String → Val
  | list  : List Val → Val
  | tuple : List Val → Val
  | set   : List Val → Val
  | dict  : List (Key × Val) → Val
  | ntuple : String → List String → List Val → Val
  | attrs : String → List String → List Val → Val

mutual
/-- Structural boolean equality on `Val` (the derive handler does not support
this nested inductive, so equality is spelled out). -/
def valBeq : Val → Val → Bool
  | .none, .none => true
  | .int a, .int b => a == b
  | .str a, .str b => a == b
  | .obj a, .obj b => a == b
  | .list a, .list b => valListBeq a b
  | .tuple a, .tuple b => valListBeq a b
  | .set a, .set b => valListBeq a b
  | .dict a, .dict b => valPairsBeq a b
  | .ntuple n f a, .ntuple m g b => n == m && f == g && valListBeq a b
  | .attrs n f a, .attrs m g b => n == m && f == g && valListBeq a b
  | _, _ => false

/-- Pointwise `valBeq` on lists. -/
def valListBeq : List Val → List Val → Bool
  | [], [] => true
  | a :: as, b :: bs => valBeq a b && valListBeq as bs
  | _, _ => false

/-- Pointwise `valBeq` on key/value pair lists. -/
def valPairsBeq : List (Key × Val) → List (Key × Val) → Bool
  | [], [] => true
  | (k, a) :: as, (j, b) :: bs => k == j && valBeq a b && valPairsBeq as bs
  | _, _ => false
end

/-- Member-wise induction principle for the nested inductive `Val`. -/
theorem Val.my_ind (P : Val → Prop)
    (hnone : P .none) (hint : ∀ n, P (.int n)) (hstr : ∀ s, P (.str s)) (hobj : ∀ o, P (.obj o))
    (hlist : ∀ xs, (∀ v ∈ xs, P v) → P (.list xs))
    (htuple : ∀ xs, (∀ v ∈ xs, P v) → P (.tuple xs))
    (hset : ∀ xs, (∀ v ∈ xs, P v) → P (.set xs))
    (hdict : ∀ xs, (∀ kv ∈ xs, P (Prod.snd kv)) → P (.dict xs))
    (hnt : ∀ n f xs, (∀ v ∈ xs, P v) → P (.ntuple n f xs))
    (hat : ∀ n f xs, (∀ v ∈ xs, P v) → P (.attrs n f xs)) :
    ∀ v, P v := by
  have key : ∀ n v, sizeOf v ≤ n → P v := by
    intro n
    induction n with
    | zero => intro v hv; cases v <;> simp at hv
    | succ n ih =>
      intro v hv
      cases v with
      | none => exact hnone
      | int m => exact hint m
      | str s => exact hstr s
      | obj o => exact hobj o
      | list xs =>
          refine hlist xs (fun w hw => ih w ?_)
          have h1 := List.sizeOf_lt_of_mem hw
          simp at hv; omega
      | tuple xs =>
          refine htuple xs (fun w hw => ih w ?_)
          have h1 := List.sizeOf_lt_of_mem hw
          simp at hv; omega
      | set xs =>
          refine hset xs (fun w hw => ih w ?_)
          have h1 := List.sizeOf_lt_of_mem hw
          simp at hv; omega
      | dict xs =>
          refine hdict xs (fun kv hkv => ih kv.2 ?_)
          have h1 := List.sizeOf_lt_of_mem hkv
          have h2 : sizeOf kv.2 < sizeOf kv := by
            cases kv with | mk k v => simp
          simp at hv; omega
      | ntuple nm f xs =>
          refine hnt nm f xs (fun w hw => ih w ?_)
          have h1 := List.sizeOf_lt_of_mem hw
          simp at hv; omega
      | attrs nm f xs =>
          refine hat nm f xs (fun w hw => ih w ?_)
          have h1 := List.sizeOf_lt_of_mem hw
          simp at hv; omega
  exact fun v => key (sizeOf v) v le_rfl

theorem valListBeq_iff (xs ys : List Val)
    (ih : ∀ v ∈ xs, ∀ b, valBeq v b = true ↔ v = b) :
    valListBeq xs ys = true ↔ xs = ys := by
  induction xs generalizing ys with
  | nil => cases ys <;> simp [valListBeq]
  | cons a as iha =>
      cases ys with
      | nil => simp [valListBeq]
      | cons b bs =>
          have h1 := ih a (List.mem_cons_self a as)
          have h2 := iha bs (fun v hv => ih v (List.mem_cons_of_mem a hv))
          simp [valListBeq, h1, h2]

theorem valPairsBeq_iff (xs ys : List (Key × Val))
    (ih : ∀ kv ∈ xs, ∀ b, valBeq kv.2 b = true ↔ kv.2 = b) :
    valPairsBeq xs ys = true ↔ xs = ys := by
  induction xs generalizing ys with
  | nil => cases ys <;> simp [valPairsBeq]
  | cons a as iha =>
      cases ys with
      | nil => cases a; simp [valPairsBeq]
      | cons b bs =>
          cases a with
          | mk k v =>
            cases b with
            | mk j w =>
              have h1 := ih (k, v) (List.mem_cons_self (k, v) as)
              have h2 := iha bs (fun kv hkv => ih kv (List.mem_cons_of_mem (k, v) hkv))
              simp only [valPairsBeq, Bool.and_eq_true, beq_iff_eq, h1, h2,
                List.cons.injEq, Prod.mk.injEq]

theorem valBeq_iff : ∀ a b : Val, valBeq a b = true ↔ a = b := by
  intro a
  induction a using Val.my_ind with
  | hnone => intro b; cases b <;> simp [valBeq]
  | hint n => intro b; cases b <;> simp [valBeq]
  | hstr s => intro b; cases b <;> simp [valBeq]
  | hobj o => intro b; cases b <;> simp [valBeq]
  | hlist xs ih =>
      intro b; cases b <;> simp [valBeq]
      exact valListBeq_iff xs _ ih
  | htuple xs ih =>
      intro b; cases b <;> simp [valBeq]
      exact valListBeq_iff xs _ ih
  | hset xs ih =>
      intro b; cases b <;> simp [valBeq]
      exact valListBeq_iff xs _ ih
  | hdict xs ih =>
      intro b; cases b <;> simp [valBeq]
      exact valPairsBeq_iff xs _ ih
  | hnt n f xs ih =>
      intro b; cases b <;> simp [valBeq]
      rename_i m g ys
      have h := valListBeq_iff xs ys ih
      tauto
  | hat n f xs ih =>
      intro b; cases b <;> simp [valBeq]
      rename_i m g ys
      have h := valListBeq_iff xs ys ih
      tauto

instance : DecidableEq Val := fun a b => decidable_of_iff (valBeq a b = true) (valBeq_iff a b)

/-- Exception kinds the library can raise, one constructor per distinct Python
failure mode. `malformed` is the `ValueError` from `flatten`/`map` on a value
that is neither atomic nor a structure (it carries the offending value);
`unsortableKeys` is the `ValueError` raised by `_sorted_keys`; `keyTypeError`
is the bare `TypeError` from the raw `sorted()` call inside `flatten`;
`typeError` covers iterating a non-iterable and constructor arity errors;
`indexError` is `flat_list[index]` running out of elements; `assertionError`
comes from `assert_same_structure`; `unboundLocal` is `reduce`'s use of its
loop variable when the flat list is empty; `recursionError` models the
unbounded recursion into the characters of a non-atomic string;
`maxOfEmpty` is the `ValueError` from `max()` on an empty sequence in
`has_max_depth`. -/
inductive Err where
  | malformed : Val → Err
  | unsortableKeys : Err
  | keyTypeError : Err
  | typeError : Err
  | indexError : Err
  | assertionError : Err
  | unboundLocal : Err
  | recursionError : Err
  | maxOfEmpty : Err
deriving DecidableEq

@[simp] theorem except_ok_bind {ε α β : Type} (a : α) (f : α → Except ε β) :
    (Except.ok a >>= f) = f a := rfl

@[simp] theorem except_error_bind {ε α β : Type} (e : ε) (f : α → Except ε β) :
    (Except.error e >>= f : Except ε β) = Except.error e := rfl

@[simp] theorem except_pure_eq {ε α : Type} (a : α) :
    (pure a : Except ε α) = Except.ok a := rfl

/-- Whether a key is an int key. -/
def keyIsInt : Key → Bool
  | .kint _ => true
  | .kstr _ => false

/-- Total comparison used by the model's deterministic sort.  Within one key
kind it is the usual order; across kinds it is an arbitrary total choice that
is only exercised on key lists `sortableKeys` rejects. -/
def keyLe : Key → Key → Bool
  | .kint a, .kint b => a ≤ b
  | .kstr a, .kstr b => a ≤ b
  | .kint _, .kstr _ => true
  | .kstr _, .kint _ => false

/-- Python 3's `sorted` raises `TypeError` exactly when the key list mixes
ints and strings (it compares adjacent elements while scanning, so any mixed
list trips). -/
def sortableKeys (ks : List Key) : Bool :=
  ks.all keyIsInt || ks.all (fun k => !keyIsInt k)

/-- Insert one key/value pair into a key-sorted pair list. -/
def insertPair {α : Type} (x : Key × α) : List (Key × α) → List (Key × α)
  | [] => [x]
  | y :: ys => if keyLe x.1 y.1 then x :: y :: ys else y :: insertPair x ys

/-- Deterministic insertion sort of a pair list by key; the model of iterating
a dict in `sorted(keys)` order. -/
def sortPairs {α : Type} : List (Key × α) → List (Key × α)
  | [] => []
  | x :: xs => insertPair x (sortPairs xs)

theorem insertPair_perm {α : Type} (x : Key × α) (l : List (Key × α)) :
    List.Perm (insertPair x l) (x :: l) := by
  induction l with
  | nil => simp [insertPair]
  | cons y ys ih =>
      simp only [insertPair]
      split
      · exact List.Perm.refl _
      · exact List.Perm.trans (List.Perm.cons y ih) (List.Perm.swap x y ys)

theorem sortPairs_perm {α : Type} (l : List (Key × α)) :
    List.Perm (sortPairs l) l := by
  induction l with
  | nil => simp [sortPairs]
  | cons x xs ih =>
      exact List.Perm.trans (insertPair_perm x (sortPairs xs)) (List.Perm.cons x ih)

theorem mem_sortPairs {α : Type} {l : List (Key × α)} {a : Key × α} :
    a ∈ sortPairs l ↔ a ∈ l :=
  (sortPairs_perm l).mem_iff

theorem length_sortPairs {α : Type} (l : List (Key × α)) :
    (sortPairs l).length = l.length :=
  (sortPairs_perm l).length_eq

/-- `insertPair` only inspects keys, so it commutes with any value-only
transformation of the pairs. -/
theorem insertPair_map_val {α β : Type} (g : Key → α → β) (x : Key × α) (l : List (Key × α)) :
    insertPair (x.1, g x.1 x.2) (l.map (fun kv => (kv.1, g kv.1 kv.2))) =
      (insertPair x l).map (fun kv => (kv.1, g kv.1 kv.2)) := by
  induction l with
  | nil => simp [insertPair]
  | cons y ys ih =>
      simp only [List.map_cons, insertPair]
      split
      · simp
      · simp [ih]

theorem sortPairs_map_val {α β : Type} (g : Key → α → β) (l : List (Key × α)) :
    sortPairs (l.map (fun kv => (kv.1, g kv.1 kv.2))) =
      (sortPairs l).map (fun kv => (kv.1, g kv.1 kv.2)) := by
  induction l with
  | nil => simp [sortPairs]
  | cons x xs ih =>
      simp only [List.map_cons, sortPairs, ih]
      exact insertPair_map_val g x (sortPairs xs)

theorem keyLe_trans {a b c : Key} (h1 : keyLe a b = true) (h2 : keyLe b c = true) :
    keyLe a c = true := by
  cases a <;> cases b <;> cases c <;> simp_all [keyLe] <;> exact le_trans h1 h2

theorem keyLe_total (a b : Key) : keyLe a b = true ∨ keyLe b a = true := by
  cases a <;> cases b <;> simp [keyLe] <;> exact le_total _ _

/-- Key-sortedness of a pair list (non-strict chain). -/
def pairsSorted {α : Type} : List (Key × α) → Prop
  | [] => True
  | [_] => True
  | x :: y :: ys => keyLe x.1 y.1 = true ∧ pairsSorted (y :: ys)

theorem pairsSorted_cons_of {α : Type} {x : Key × α} {l : List (Key × α)}
    (hl : pairsSorted l) (hx : ∀ y ∈ l, keyLe x.1 y.1 = true) :
    pairsSorted (x :: l) := by
  cases l with
  | nil => trivial
  | cons y ys => exact ⟨hx y (by simp), hl⟩

theorem pairsSorted_tail {α : Type} {x : Key × α} {l : List (Key × α)}
    (h : pairsSorted (x :: l)) : pairsSorted l := by
  cases l with
  | nil => trivial
  | cons y ys => exact h.2

theorem pairsSorted_head {α : Type} {x y : Key × α} {l : List (Key × α)}
    (h : pairsSorted (x :: l)) (hy : y ∈ l) : keyLe x.1 y.1 = true := by
  induction l generalizing x with
  | nil => cases hy
  | cons z zs ih =>
      rcases List.mem_cons.mp hy with h1 | h1
      · subst h1; exact h.1
      · exact keyLe_trans h.1 (ih h.2 h1)

theorem insertPair_sorted {α : Type} (x : Key × α) (l : List (Key × α))
    (hl : pairsSorted l) : pairsSorted (insertPair x l) := by
  induction l with
  | nil => trivial
  | cons y ys ih =>
      simp only [insertPair]
      split
      · next hle =>
          refine pairsSorted_cons_of hl ?_
          intro z hz
          rcases List.mem_cons.mp hz with h1 | h1
          · subst h1; exact hle
          · exact keyLe_trans hle (pairsSorted_head hl h1)
      · next hnotle =>
          refine pairsSorted_cons_of (ih (pairsSorted_tail hl)) ?_
          intro z hz
          have hyx : keyLe y.1 x.1 = true := by
            rcases keyLe_total x.1 y.1 with h | h
            · exact absurd h hnotle
            · exact h
          rcases List.mem_cons.mp ((insertPair_perm x ys).mem_iff.mp hz) with h1 | h1
          · subst h1; exact hyx
          · exact pairsSorted_head hl h1

theorem sortPairs_sorted {α : Type} (l : List (Key × α)) : pairsSorted (sortPairs l) := by
  induction l with
  | nil => trivial
  | cons x xs ih => exact insertPair_sorted x (sortPairs xs) ih

theorem insertPair_of_le {α : Type} (x : Key × α) (l : List (Key × α))
    (h : ∀ y ∈ l, keyLe x.1 y.1 = true) : insertPair x l = x :: l := by
  cases l with
  | nil => rfl
  | cons y ys => simp [insertPair, h y (by simp)]

theorem sortPairs_of_sorted {α : Type} (l : List (Key × α)) (h : pairsSorted l) :
    sortPairs l = l := by
  induction l with
  | nil => rfl
  | cons x xs ih =>
      simp only [sortPairs, ih (pairsSorted_tail h)]
      exact insertPair_of_le x xs (fun y hy => pairsSorted_head h hy)

theorem sortPairs_idem {α : Type} (l : List (Key × α)) :
    sortPairs (sortPairs l) = sortPairs l :=
  sortPairs_of_sorted _ (sortPairs_sorted l)

end Nifty

namespace Nifty

theorem sizeOf_insertPair (x : Key × Val) (l : List (Key × Val)) :
    sizeOf (insertPair x l) = 1 + sizeOf x + sizeOf l := by
  induction l with
  | nil => simp [insertPair]
  | cons y ys ih =>
      simp only [insertPair]
      split <;> simp [ih] <;> try omega

theorem sizeOf_sortPairs_eq (l : List (Key × Val)) :
    sizeOf (sortPairs l) = sizeOf l := by
  induction l with
  | nil => rfl
  | cons x xs ih => simp [sortPairs, sizeOf_insertPair, ih] <;> try omega

theorem sizeOf_map_snd_le (l : List (Key × Val)) :
    sizeOf (l.map Prod.snd) ≤ sizeOf l := by
  induction l with
  | nil => simp
  | cons x xs ih =>
      cases x with
      | mk k v => simp only [List.map_cons]; simp; omega

theorem sizeOf_sorted_snd_le (l : List (Key × Val)) :
    sizeOf ((sortPairs l).map Prod.snd) ≤ sizeOf l := by
  have h1 := sizeOf_map_snd_le (sortPairs l)
  have h2 := sizeOf_sortPairs_eq l
  omega

/-- `is_scalar`, the default atomicity criterion: strings are atomic; attrs
objects, sequences (lists, tuples, namedtuples), sets and mappings are not;
everything else (ints, `None`, plain objects, ...) is. -/
def is_scalar : Val → Bool
  | .str _ => true
  | .attrs _ _ _ => false
  | .list _ => false
  | .tuple _ => false
  | .ntuple _ _ _ => false
  | .set _ => false
  | .dict _ => false
  | .none => true
  | .int _ => true
  | .obj _ => true

/-- The runtime type of a value, as compared by `type(a) == type(b)`.
Namedtuple and attrs classes are identified by their name and field tuple. -/
inductive TypeTag where
  | tNone : TypeTag
  | tInt : TypeTag
  | tStr : TypeTag
  | tList : TypeTag
  | tTuple : TypeTag
  | tSet : TypeTag
  | tDict : TypeTag
  | tObj : String → TypeTag
  | tNtuple : String → List String → TypeTag
  | tAttrs : String → List String → TypeTag
deriving DecidableEq

def typeTag : Val → TypeTag
  | .none => .tNone
  | .int _ => .tInt
  | .str _ => .tStr
  | .obj o => .tObj o
  | .list _ => .tList
  | .tuple _ => .tTuple
  | .set _ => .tSet
  | .dict _ => .tDict
  | .ntuple n f _ => .tNtuple n f
  | .attrs n f _ => .tAttrs n f

mutual
/-- Python hashability: ints, strings, `None`, plain objects, and tuples or
namedtuples of hashable values are hashable; lists, sets, dicts and (default)
attrs instances are not.  Real Python sets can only hold hashable elements. -/
def hashableV : Val → Bool
  | .none => true
  | .int _ => true
  | .str _ => true
  | .obj _ => true
  | .tuple xs => hashableL xs
  | .ntuple _ _ xs => hashableL xs
  | .list _ => false
  | .set _ => false
  | .dict _ => false
  | .attrs _ _ _ => false

/-- Pointwise hashability. -/
def hashableL : List Val → Bool
  | [] => true
  | v :: vs => hashableV v && hashableL vs
end

/-- Key list with no duplicates (Python dict invariant). -/
def nodupKeys : List Key → Bool
  | [] => true
  | k :: ks => !(ks.contains k) && nodupKeys ks

/-- Value list with no duplicates (Python set invariant). -/
def nodupB : List Val → Bool
  | [] => true
  | v :: vs => !(decide (v ∈ vs)) && nodupB vs

/-- The `set(elements)` constructor: deduplicate, keeping first occurrences.
(Python's set iteration order is hash-table dependent; the model fixes the
deterministic stand-in that preserves first-occurrence order, which agrees
with Python whenever no deduplication occurs.) -/
def mkSet : List Val → List Val
  | [] => []
  | v :: vs => v :: (mkSet vs).filter (fun w => !(decide (w = v)))

theorem mkSet_of_nodup (l : List Val) (h : nodupB l = true) : mkSet l = l := by
  induction l with
  | nil => rfl
  | cons v vs ih =>
      simp only [nodupB, Bool.and_eq_true] at h
      obtain ⟨h1, h2⟩ := h
      have h1' : v ∉ vs := by simpa using h1
      simp only [mkSet, ih h2]
      have hf : ∀ w ∈ vs, (!(decide (w = v))) = true := by
        intro w hw
        have hne : w ≠ v := fun he => h1' (he ▸ hw)
        simp [hne]
      rw [List.filter_eq_self.mpr hf]

/-- The second argument of `_shallow_structure_like`: either a plain list of
new children or (from `filter`'s mapping branch) an already keyed mapping. -/
inductive Elems where
  | lst : List Val → Elems
  | dct : List (Key × Val) → Elems

/-- `elements[0]` on the rebuild argument: the first element of a list (an
empty list raises `IndexError`; indexing a dict by `0` is unreachable and
collapsed to `TypeError`). -/
def elemsHead : Elems → Except Err Val
  | .lst (e :: _) => .ok e
  | .lst [] => .error .indexError
  | .dct _ => .error .typeError

/-- `_shallow_structure_like(structure, elements, is_atomic)`: rebuild a
container of `structure`'s shape from `elements`.  `None` rebuilds to `None`;
an atomic structure returns `elements[0]` (an empty list raises `IndexError`);
a namedtuple or attrs object is rebuilt positionally (`TypeError` on an arity
mismatch); a sequence or set is rebuilt by the type's constructor (sets
deduplicate); a mapping zips its sorted keys against a plain `elements` list,
or adopts the keys of a mapping `elements`.  A non-atomic string (reachable
only for the empty string, whose rebuilt value is `str([]) == "[]"`) and the
remaining fall-through cases are collapsed to their reachable behaviour. -/
def shallow_structure_like (p : Val → Bool) (s : Val) (elements : Elems) : Except Err Val :=
  if s = .none then .ok .none
  else if p s then elemsHead elements
  else
    match s, elements with
    | .ntuple n f _, .lst es =>
        if es.length = f.length then .ok (.ntuple n f es) else .error .typeError
    | .attrs n f _, .lst es =>
        if es.length = f.length then .ok (.attrs n f es) else .error .typeError
    | .list _, .lst es => .ok (.list es)
    | .tuple _, .lst es => .ok (.tuple es)
    | .set _, .lst es => .ok (.set (mkSet es))
    | .str _, .lst [] => .ok (.str "[]")
    | .dict xs, .lst es =>
        if sortableKeys (xs.map Prod.fst) then
          .ok (.dict (((sortPairs xs).map Prod.fst).zip es))
        else .error .unsortableKeys
    | .dict _, .dct ds =>
        if sortableKeys (ds.map Prod.fst) then .ok (.dict (sortPairs ds))
        else .error .unsortableKeys
    | _, _ => .error .typeError

mutual
/-- `flatten(structure, is_atomic)`.  `None` contributes nothing (checked
before atomicity); an atomic value contributes itself; attrs objects,
sequences, namedtuples and sets concatenate their children's flattenings;
mappings iterate values in raw `sorted(keys)` order, raising the bare
`TypeError` (`keyTypeError`) on a mixed-kind key list; any other value raises
the `ValueError` modelled as `malformed`, carrying the value.  A non-atomic
non-empty string makes Python recurse into its one-character substrings
without progress (`RecursionError`); the model collapses that unreachable
region (excluded by `WF`) to `recursionError`. -/
def flatten (p : Val → Bool) : Val → Except Err (List Val)
  | .none => .ok []
  | .int n => if p (.int n) then .ok [.int n] else .error (.malformed (.int n))
  | .obj o => if p (.obj o) then .ok [.obj o] else .error (.malformed (.obj o))
  | .str s =>
      if p (.str s) then .ok [.str s]
      else if s.length = 0 then .ok [] else .error .recursionError
  | .attrs n f xs => if p (.attrs n f xs) then .ok [.attrs n f xs] else flattenList p xs
  | .list xs => if p (.list xs) then .ok [.list xs] else flattenList p xs
  | .tuple xs => if p (.tuple xs) then .ok [.tuple xs] else flattenList p xs
  | .ntuple n f xs => if p (.ntuple n f xs) then .ok [.ntuple n f xs] else flattenList p xs
  | .set xs => if p (.set xs) then .ok [.set xs] else flattenList p xs
  | .dict xs =>
      if p (.dict xs) then .ok [.dict xs]
      else if sortableKeys (xs.map Prod.fst) then flattenList p ((sortPairs xs).map Prod.snd)
      else .error .keyTypeError
termination_by v => sizeOf v
decreasing_by
  all_goals simp_wf
  all_goals try omega
  all_goals (have h := sizeOf_sorted_snd_le xs; omega)

/-- Left-to-right flattening of a child list, concatenating results. -/
def flattenList (p : Val → Bool) : List Val → Except Err (List Val)
  | [] => .ok []
  | v :: vs => do
      let a ← flatten p v
      let b ← flattenList p vs
      pure (a ++ b)
termination_by l => sizeOf l
decreasing_by
  all_goals simp_wf
  all_goals omega
end

mutual
/-- `map(func, structure, is_atomic)`: `None` maps to `None`; an atomic value
to `func(value)`; containers are rebuilt via `_shallow_structure_like` from
the recursively mapped children (mappings in `_sorted_keys` order, raising
`unsortableKeys` first).  Non-atomic ints and plain objects raise the
`malformed` `ValueError`; non-atomic strings as in `flatten` (the empty
string rebuilds to `str([])`). -/
def map (f : Val → Val) (p : Val → Bool) : Val → Except Err Val
  | .none => .ok .none
  | .int n => if p (.int n) then .ok (f (.int n)) else .error (.malformed (.int n))
  | .obj o => if p (.obj o) then .ok (f (.obj o)) else .error (.malformed (.obj o))
  | .str s =>
      if p (.str s) then .ok (f (.str s))
      else if s.length = 0 then shallow_structure_like p (.str s) (.lst [])
      else .error .recursionError
  | .attrs n fl xs =>
      if p (.attrs n fl xs) then .ok (f (.attrs n fl xs))
      else do
        let ms ← mapList f p xs
        shallow_structure_like p (.attrs n fl xs) (.lst ms)
  | .list xs =>
      if p (.list xs) then .ok (f (.list xs))
      else do
        let ms ← mapList f p xs
        shallow_structure_like p (.list xs) (.lst ms)
  | .tuple xs =>
      if p (.tuple xs) then .ok (f (.tuple xs))
      else do
        let ms ← mapList f p xs
        shallow_structure_like p (.tuple xs) (.lst ms)
  | .ntuple n fl xs =>
      if p (.ntuple n fl xs) then .ok (f (.ntuple n fl xs))
      else do
        let ms ← mapList f p xs
        shallow_structure_like p (.ntuple n fl xs) (.lst ms)
  | .set xs =>
      if p (.set xs) then .ok (f (.set xs))
      else do
        let ms ← mapList f p xs
        shallow_structure_like p (.set xs) (.lst ms)
  | .dict xs =>
      if p (.dict xs) then .ok (f (.dict xs))
      else if sortableKeys (xs.map Prod.fst) then do
        let ms ← mapList f p ((sortPairs xs).map Prod.snd)
        shallow_structure_like p (.dict xs) (.lst ms)
      else .error .unsortableKeys
termination_by v => sizeOf v
decreasing_by
  all_goals simp_wf
  all_goals try omega
  all_goals (have h := sizeOf_sorted_snd_le xs; omega)

/-- Pointwise mapping of a child list. -/
def mapList (f : Val → Val) (p : Val → Bool) : List Val → Except Err (List Val)
  | [] => .ok []
  | v :: vs => do
      let a ← map f p v
      let b ← mapList f p vs
      pure (a :: b)
termination_by l => sizeOf l
decreasing_by
  all_goals simp_wf
  all_goals omega
end

/-- `reduce(func, structure, is_atomic)`: `None` reduces to `None`; otherwise
a left fold of `func` over `flatten(structure)`, seeded with the first leaf.
With zero leaves the loop never assigns its accumulator and Python raises
`UnboundLocalError` at `return reduced`. -/
def reduce (f : Val → Val → Val) (p : Val → Bool) (s : Val) : Except Err Val :=
  match s with
  | .none => .ok .none
  | s =>
      match flatten p s with
      | .error e => .error e
      | .ok [] => .error .unboundLocal
      | .ok (x :: xs) => .ok (xs.foldl f x)

/-- The tri-state outcome of `_filter_helper`: the `FALSEY` sentinel or a
surviving value. -/
inductive FRes where
  | falsey : FRes
  | val : Val → FRes
deriving DecidableEq

def fResToVal : FRes → Val
  | .falsey => .none
  | .val v => v

def isFalsey : FRes → Bool
  | .falsey => true
  | .val _ => false

mutual
/-- `_filter_helper(func, structure, is_atomic, keep_structure)`.  `None` is
`FALSEY` before anything else; an atomic value is kept iff `func` accepts it.
Records (attrs objects and namedtuples) keep their arity, replacing `FALSEY`
children with `None`; sequences and sets drop `FALSEY` children; mappings drop
the corresponding keys (in `_sorted_keys` order).  The inner
`_shallow_yield_from`/`_shallow_structure_like` calls use the default
`is_scalar` criterion, as in the source.  A value that is neither atomic nor
a recognised structure falls off the end of the helper, which in Python
silently returns `None`, i.e. a surviving `None` value. -/
def filterHelper (f : Val → Bool) (keep : Bool) (p : Val → Bool) : Val → Except Err FRes
  | .none => .ok .falsey
  | .int n =>
      if p (.int n) then .ok (if f (.int n) then .val (.int n) else .falsey)
      else .ok (.val .none)
  | .obj o =>
      if p (.obj o) then .ok (if f (.obj o) then .val (.obj o) else .falsey)
      else .ok (.val .none)
  | .str s =>
      if p (.str s) then .ok (if f (.str s) then .val (.str s) else .falsey)
      else if s.length = 0 then
        if keep then do
          let t ← shallow_structure_like is_scalar (.str s) (.lst [])
          pure (.val t)
        else .ok .falsey
      else .error .recursionError
  | .ntuple n fl xs =>
      if p (.ntuple n fl xs) then
        .ok (if f (.ntuple n fl xs) then .val (.ntuple n fl xs) else .falsey)
      else do
        let rs ← filterList f keep p xs
        if keep || rs.any (fun r => !(isFalsey r)) then do
          let t ← shallow_structure_like is_scalar (.ntuple n fl xs) (.lst (rs.map fResToVal))
          pure (.val t)
        else pure .falsey
  | .attrs n fl xs =>
      if p (.attrs n fl xs) then
        .ok (if f (.attrs n fl xs) then .val (.attrs n fl xs) else .falsey)
      else do
        let rs ← filterList f keep p xs
        if keep || rs.any (fun r => !(isFalsey r)) then do
          let t ← shallow_structure_like is_scalar (.attrs n fl xs) (.lst (rs.map fResToVal))
          pure (.val t)
        else pure .falsey
  | .list xs =>
      if p (.list xs) then .ok (if f (.list xs) then .val (.list xs) else .falsey)
      else do
        let rs ← filterList f keep p xs
        let kept := rs.filterMap (fun r => match r with | .falsey => Option.none | .val v => Option.some v)
        if keep || !kept.isEmpty then do
          let t ← shallow_structure_like is_scalar (.list xs) (.lst kept)
          pure (.val t)
        else pure .falsey
  | .tuple xs =>
      if p (.tuple xs) then .ok (if f (.tuple xs) then .val (.tuple xs) else .falsey)
      else do
        let rs ← filterList f keep p xs
        let kept := rs.filterMap (fun r => match r with | .falsey => Option.none | .val v => Option.some v)
        if keep || !kept.isEmpty then do
          let t ← shallow_structure_like is_scalar (.tuple xs) (.lst kept)
          pure (.val t)
        else pure .falsey
  | .set xs =>
      if p (.set xs) then .ok (if f (.set xs) then .val (.set xs) else .falsey)
      else do
        let rs ← filterList f keep p xs
        let kept := rs.filterMap (fun r => match r with | .falsey => Option.none | .val v => Option.some v)
        if keep || !kept.isEmpty then do
          let t ← shallow_structure_like is_scalar (.set xs) (.lst kept)
          pure (.val t)
        else pure .falsey
  | .dict xs =>
      if p (.dict xs) then .ok (if f (.dict xs) then .val (.dict xs) else .falsey)
      else if sortableKeys (xs.map Prod.fst) then do
        let prs ← filterPairs f keep p (sortPairs xs)
        if keep || !prs.isEmpty then do
          let t ← shallow_structure_like is_scalar (.dict xs) (.dct prs)
          pure (.val t)
        else pure .falsey
      else .error .unsortableKeys
termination_by v => sizeOf v
decreasing_by
  all_goals simp_wf
  all_goals try omega
  all_goals (have h := sizeOf_sortPairs_eq xs; omega)

/-- Filter results for each child of a record or sequence, in order. -/
def filterList (f : Val → Bool) (keep : Bool) (p : Val → Bool) : List Val → Except Err (List FRes)
  | [] => .ok []
  | v :: vs => do
      let r ← filterHelper f keep p v
      let rs ← filterList f keep p vs
      pure (r :: rs)
termination_by l => sizeOf l
decreasing_by
  all_goals simp_wf
  all_goals omega

/-- Filter a sorted mapping's pairs, keeping the keys of surviving values. -/
def filterPairs (f : Val → Bool) (keep : Bool) (p : Val → Bool) :
    List (Key × Val) → Except Err (List (Key × Val))
  | [] => .ok []
  | (k, v) :: kvs => do
      let r ← filterHelper f keep p v
      let rs ← filterPairs f keep p kvs
      match r with
      | .falsey => pure rs
      | .val w => pure ((k, w) :: rs)
termination_by l => sizeOf l
decreasing_by
  all_goals simp_wf
  all_goals omega
end

/-- `filter(func, structure, keep_structure, is_atomic)`: the wrapper mapping
the `FALSEY` sentinel to `None`. -/
def filter (f : Val → Bool) (keep : Bool) (p : Val → Bool) (s : Val) : Except Err Val := do
  let r ← filterHelper f keep p s
  pure (fResToVal r)

end Nifty

namespace Nifty

mutual
/-- `_pack_into_helper(structure, flat_list, is_atomic, index)`: walk the
children given by `_shallow_yield_from` in order, consuming
`flat_list[index]` at every position the predicate deems atomic (note this
includes a `None` child: the helper checks `is_atomic(substructure)` without
any `None` handling, so `is_scalar`-atomic `None` consumes an element), and
recursing into non-atomic children; finally rebuild via
`_shallow_structure_like`.  An atomic `structure` is its own single child and
the rebuild returns `elements[0]`, so that case is written directly as
consuming one element.  Iterating a non-atomic `None`, int or plain object
raises `TypeError`; a mapping's keys are sorted by `_sorted_keys`
(`unsortableKeys` on mixed kinds); non-atomic strings as in `flatten`. -/
def packHelper (p : Val → Bool) (l : List Val) : Val → Nat → Except Err (Nat × Val)
  | v, i =>
    if p v then
      match l.get? i with
      | Option.some x => .ok (i + 1, x)
      | Option.none => .error .indexError
    else
      match v with
      | .none => .error .typeError
      | .int _ => .error .typeError
      | .obj _ => .error .typeError
      | .str s =>
          if s.length = 0 then do
            let t ← shallow_structure_like p (.str s) (.lst [])
            pure (i, t)
          else .error .recursionError
      | .list xs => do
          let r ← packList p l xs i
          let t ← shallow_structure_like p (.list xs) (.lst r.2)
          pure (r.1, t)
      | .tuple xs => do
          let r ← packList p l xs i
          let t ← shallow_structure_like p (.tuple xs) (.lst r.2)
          pure (r.1, t)
      | .set xs => do
          let r ← packList p l xs i
          let t ← shallow_structure_like p (.set xs) (.lst r.2)
          pure (r.1, t)
      | .ntuple n f xs => do
          let r ← packList p l xs i
          let t ← shallow_structure_like p (.ntuple n f xs) (.lst r.2)
          pure (r.1, t)
      | .attrs n f xs => do
          let r ← packList p l xs i
          let t ← shallow_structure_like p (.attrs n f xs) (.lst r.2)
          pure (r.1, t)
      | .dict xs =>
          if sortableKeys (xs.map Prod.fst) then do
            let r ← packList p l ((sortPairs xs).map Prod.snd) i
            let t ← shallow_structure_like p (.dict xs) (.lst r.2)
            pure (r.1, t)
          else .error .unsortableKeys
termination_by v => sizeOf v
decreasing_by
  all_goals simp_wf
  all_goals try omega
  all_goals (have h := sizeOf_sorted_snd_le xs; omega)

/-- Pack a child list left to right, threading the flat-list index. -/
def packList (p : Val → Bool) (l : List Val) : List Val → Nat → Except Err (Nat × List Val)
  | [], i => .ok (i, [])
  | c :: cs, i =>
      if p c then
        match l.get? i with
        | Option.some x => do
            let r ← packList p l cs (i + 1)
            pure (r.1, x :: r.2)
        | Option.none => .error .indexError
      else do
        let r ← packHelper p l c i
        let r2 ← packList p l cs r.1
        pure (r2.1, r.2 :: r2.2)
termination_by cs => sizeOf cs
decreasing_by
  all_goals simp_wf
  all_goals omega
end

/-- `pack_list_into(structure, flat_list, is_atomic)`: `None` packs to `None`;
otherwise run the helper from index 0 and return the packed structure,
silently ignoring any unconsumed flat-list elements. -/
def pack_list_into (s : Val) (l : List Val) (p : Val → Bool) : Except Err Val :=
  match s with
  | .none => .ok .none
  | s => do
      let r ← packHelper p l s 0
      pure r.2

mutual
/-- `assert_same_structure(structure1, structure2, is_atomic)`: asserts equal
atomicity; atomic pairs succeed with no value comparison; otherwise asserts
`type(a) == type(b)`, for mappings equal `_sorted_keys` lists (raising
`unsortableKeys` on either side first), equal child counts, and recursively
matching children pairwise in enumerator order.  Failed `assert`s raise
`AssertionError`; iterating a non-atomic `None`/int/plain object raises
`TypeError`; a same-length pair of non-atomic non-empty strings recurses on
single characters without progress (collapsed to `recursionError`).  The
final catch-all is unreachable once the type tags agree. -/
def assert_same_structure (p : Val → Bool) : Val → Val → Except Err Unit
  | a, b =>
    if (p a) = (p b) then
      if p a then .ok ()
      else if typeTag a = typeTag b then
        match a, b with
        | .dict xs, .dict ys =>
            if sortableKeys (xs.map Prod.fst) then
              if sortableKeys (ys.map Prod.fst) then
                if (sortPairs xs).map Prod.fst = (sortPairs ys).map Prod.fst then
                  if xs.length = ys.length then
                    assertPairs p (sortPairs xs) (sortPairs ys)
                  else .error .assertionError
                else .error .assertionError
              else .error .unsortableKeys
            else .error .unsortableKeys
        | .list xs, .list ys =>
            if xs.length = ys.length then assertList p xs ys else .error .assertionError
        | .tuple xs, .tuple ys =>
            if xs.length = ys.length then assertList p xs ys else .error .assertionError
        | .set xs, .set ys =>
            if xs.length = ys.length then assertList p xs ys else .error .assertionError
        | .ntuple _ _ xs, .ntuple _ _ ys =>
            if xs.length = ys.length then assertList p xs ys else .error .assertionError
        | .attrs _ _ xs, .attrs _ _ ys =>
            if xs.length = ys.length then assertList p xs ys else .error .assertionError
        | .str s1, .str s2 =>
            if s1.length = s2.length then
              if s1.length = 0 then .ok () else .error .recursionError
            else .error .assertionError
        | _, _ => .error .typeError
      else .error .assertionError
    else .error .assertionError
termination_by a => sizeOf a
decreasing_by
  all_goals simp_wf
  all_goals try omega
  all_goals (have h := sizeOf_sortPairs_eq xs; omega)

/-- Pairwise recursion over zipped child lists (`zip` stops at the shorter
list, but callers have already asserted equal lengths). -/
def assertList (p : Val → Bool) : List Val → List Val → Except Err Unit
  | [], _ => .ok ()
  | _ :: _, [] => .ok ()
  | a :: as, b :: bs => do
      let _ ← assert_same_structure p a b
      assertList p as bs
termination_by as => sizeOf as
decreasing_by
  all_goals simp_wf
  all_goals omega

/-- Pairwise recursion over the values of two sorted mappings. -/
def assertPairs (p : Val → Bool) : List (Key × Val) → List (Key × Val) → Except Err Unit
  | [], _ => .ok ()
  | _ :: _, [] => .ok ()
  | (_, a) :: as, (_, b) :: bs => do
      let _ ← assert_same_structure p a b
      assertPairs p as bs
termination_by as => sizeOf as
decreasing_by
  all_goals simp_wf
  all_goals try omega
  all_goals (rename_i x hx; cases x; simp; omega)
end

mutual
/-- `_has_max_depth_helper(structure, _depth)`: an atomic value reports the
current depth; a non-atomic value reports the maximum over its
`_shallow_yield_from` children at depth + 1.  With no children, Python's
`max([])` raises `ValueError` (`maxOfEmpty`); iterating a non-atomic
`None`/int/plain object raises `TypeError`; a mapping needs sortable keys;
non-atomic non-empty strings as in `flatten`. -/
def depthHelper (p : Val → Bool) : Val → Nat → Except Err Nat
  | v, d =>
    if p v then .ok d
    else
      match v with
      | .none => .error .typeError
      | .int _ => .error .typeError
      | .obj _ => .error .typeError
      | .str s => if s.length = 0 then .error .maxOfEmpty else .error .recursionError
      | .list xs =>
          if xs.isEmpty then .error .maxOfEmpty else depthList p xs (d + 1)
      | .tuple xs =>
          if xs.isEmpty then .error .maxOfEmpty else depthList p xs (d + 1)
      | .set xs =>
          if xs.isEmpty then .error .maxOfEmpty else depthList p xs (d + 1)
      | .ntuple _ _ xs =>
          if xs.isEmpty then .error .maxOfEmpty else depthList p xs (d + 1)
      | .attrs _ _ xs =>
          if xs.isEmpty then .error .maxOfEmpty else depthList p xs (d + 1)
      | .dict xs =>
          if sortableKeys (xs.map Prod.fst) then
            if xs.isEmpty then .error .maxOfEmpty
            else depthList p ((sortPairs xs).map Prod.snd) (d + 1)
          else .error .unsortableKeys
termination_by v => sizeOf v
decreasing_by
  all_goals simp_wf
  all_goals try omega
  all_goals (have h := sizeOf_sorted_snd_le xs; omega)

/-- Maximum of the helper over a non-empty child list. -/
def depthList (p : Val → Bool) : List Val → Nat → Except Err Nat
  | [], _ => .error .maxOfEmpty
  | [v], d => depthHelper p v d
  | v :: vs, d => do
      let a ← depthHelper p v d
      let b ← depthList p vs d
      pure (Nat.max a b)
termination_by l => sizeOf l
decreasing_by
  all_goals simp_wf
  all_goals omega
end

/-- `has_max_depth(depth, is_atomic)` applied to a structure: the helper depth
from 0, compared against the bound. -/
def has_max_depth (depth : Nat) (p : Val → Bool) (v : Val) : Except Err Bool :=
  match depthHelper p v 0 with
  | .error e => .error e
  | .ok d => .ok (decide (d ≤ depth))

end Nifty

namespace Nifty

mutual
/-- Traversal well-formedness under a predicate `p`: the region of inputs on
which the engine's recursion is well-behaved.  `None` is always fine; any
atomic value is fine; a non-atomic int, plain object or string is not (the
first two are the `malformed` failure, the last the unbounded character
recursion); traversed sequences and records need well-formed children
(records also carry the namedtuple/attrs invariant that the field-name and
value lists have equal length); traversed sets additionally satisfy the
Python set invariants (hashable, duplicate-free elements); traversed dicts
need sortable, duplicate-free keys and well-formed values. -/
def WF (p : Val → Bool) : Val → Bool
  | .none => true
  | .int n => p (.int n)
  | .obj o => p (.obj o)
  | .str s => p (.str s)
  | .list xs => p (.list xs) || WFList p xs
  | .tuple xs => p (.tuple xs) || WFList p xs
  | .set xs => p (.set xs) || (hashableL xs && nodupB xs && WFList p xs)
  | .ntuple n f xs => p (.ntuple n f xs) || (decide (f.length = xs.length) && WFList p xs)
  | .attrs n f xs => p (.attrs n f xs) || (decide (f.length = xs.length) && WFList p xs)
  | .dict xs => p (.dict xs) ||
      (sortableKeys (xs.map Prod.fst) && nodupKeys (xs.map Prod.fst) && WFPairs p xs)

/-- Pointwise well-formedness of children. -/
def WFList (p : Val → Bool) : List Val → Bool
  | [] => true
  | v :: vs => WF p v && WFList p vs

/-- Pointwise well-formedness of mapping values. -/
def WFPairs (p : Val → Bool) : List (Key × Val) → Bool
  | [] => true
  | kv :: kvs => WF p kv.2 && WFPairs p kvs
end

mutual
/-- No `None` at any position the traversal visits: the root is not `None`,
and every traversed container is free of `None` descendants (inside an atomic
value `None` is invisible to the engine and allowed). -/
def noneFree (p : Val → Bool) : Val → Bool
  | .none => false
  | .int _ => true
  | .obj _ => true
  | .str _ => true
  | .list xs => p (.list xs) || noneFreeList p xs
  | .tuple xs => p (.tuple xs) || noneFreeList p xs
  | .set xs => p (.set xs) || noneFreeList p xs
  | .ntuple n f xs => p (.ntuple n f xs) || noneFreeList p xs
  | .attrs n f xs => p (.attrs n f xs) || noneFreeList p xs
  | .dict xs => p (.dict xs) || noneFreePairs p xs

def noneFreeList (p : Val → Bool) : List Val → Bool
  | [] => true
  | v :: vs => noneFree p v && noneFreeList p vs

def noneFreePairs (p : Val → Bool) : List (Key × Val) → Bool
  | [] => true
  | kv :: kvs => noneFree p kv.2 && noneFreePairs p kvs
end

mutual
/-- No set at any position the traversal visits (an atomic set is a leaf and
allowed). -/
def setFree (p : Val → Bool) : Val → Bool
  | .set xs => p (.set xs)
  | .none => true
  | .int _ => true
  | .obj _ => true
  | .str _ => true
  | .list xs => p (.list xs) || setFreeList p xs
  | .tuple xs => p (.tuple xs) || setFreeList p xs
  | .ntuple n f xs => p (.ntuple n f xs) || setFreeList p xs
  | .attrs n f xs => p (.attrs n f xs) || setFreeList p xs
  | .dict xs => p (.dict xs) || setFreePairs p xs

def setFreeList (p : Val → Bool) : List Val → Bool
  | [] => true
  | v :: vs => setFree p v && setFreeList p vs

def setFreePairs (p : Val → Bool) : List (Key × Val) → Bool
  | [] => true
  | kv :: kvs => setFree p kv.2 && setFreePairs p kvs
end

mutual
/-- Every traversed container has at least one child (so `has_max_depth`'s
`max(...)` never sees an empty sequence). -/
def nonEmptyStructs (p : Val → Bool) : Val → Bool
  | .none => true
  | .int _ => true
  | .obj _ => true
  | .str _ => true
  | .list xs => p (.list xs) || (!xs.isEmpty && nonEmptyList p xs)
  | .tuple xs => p (.tuple xs) || (!xs.isEmpty && nonEmptyList p xs)
  | .set xs => p (.set xs) || (!xs.isEmpty && nonEmptyList p xs)
  | .ntuple n f xs => p (.ntuple n f xs) || (!xs.isEmpty && nonEmptyList p xs)
  | .attrs n f xs => p (.attrs n f xs) || (!xs.isEmpty && nonEmptyList p xs)
  | .dict xs => p (.dict xs) || (!xs.isEmpty && nonEmptyPairs p xs)

def nonEmptyList (p : Val → Bool) : List Val → Bool
  | [] => true
  | v :: vs => nonEmptyStructs p v && nonEmptyList p vs

def nonEmptyPairs (p : Val → Bool) : List (Key × Val) → Bool
  | [] => true
  | kv :: kvs => nonEmptyStructs p kv.2 && nonEmptyPairs p kvs
end

mutual
/-- The normal form `pack_list_into(s, flatten(s))` produces: every traversed
(non-atomic) dict has its pairs rearranged into sorted-key order; atomic
substructures and leaves are untouched. -/
def deepSort (p : Val → Bool) : Val → Val
  | .none => .none
  | .int n => .int n
  | .str s => .str s
  | .obj o => .obj o
  | .list xs => if p (.list xs) then .list xs else .list (deepSortList p xs)
  | .tuple xs => if p (.tuple xs) then .tuple xs else .tuple (deepSortList p xs)
  | .set xs => if p (.set xs) then .set xs else .set (deepSortList p xs)
  | .ntuple n f xs =>
      if p (.ntuple n f xs) then .ntuple n f xs else .ntuple n f (deepSortList p xs)
  | .attrs n f xs =>
      if p (.attrs n f xs) then .attrs n f xs else .attrs n f (deepSortList p xs)
  | .dict xs => if p (.dict xs) then .dict xs else .dict (sortPairs (deepSortPairs p xs))

def deepSortList (p : Val → Bool) : List Val → List Val
  | [] => []
  | v :: vs => deepSort p v :: deepSortList p vs

def deepSortPairs (p : Val → Bool) : List (Key × Val) → List (Key × Val)
  | [] => []
  | kv :: kvs => (kv.1, deepSort p kv.2) :: deepSortPairs p kvs
end

end Nifty

namespace Nifty

theorem WFList_iff (p : Val → Bool) (xs : List Val) :
    WFList p xs = true ↔ ∀ v ∈ xs, WF p v = true := by
  induction xs with
  | nil => simp [WFList]
  | cons v vs ih => simp [WFList, ih]

theorem WFPairs_iff (p : Val → Bool) (xs : List (Key × Val)) :
    WFPairs p xs = true ↔ ∀ kv ∈ xs, WF p kv.2 = true := by
  induction xs with
  | nil => simp [WFPairs]
  | cons kv kvs ih => simp [WFPairs, ih]

theorem noneFreeList_iff (p : Val → Bool) (xs : List Val) :
    noneFreeList p xs = true ↔ ∀ v ∈ xs, noneFree p v = true := by
  induction xs with
  | nil => simp [noneFreeList]
  | cons v vs ih => simp [noneFreeList, ih]

theorem noneFreePairs_iff (p : Val → Bool) (xs : List (Key × Val)) :
    noneFreePairs p xs = true ↔ ∀ kv ∈ xs, noneFree p kv.2 = true := by
  induction xs with
  | nil => simp [noneFreePairs]
  | cons kv kvs ih => simp [noneFreePairs, ih]

theorem setFreeList_iff (p : Val → Bool) (xs : List Val) :
    setFreeList p xs = true ↔ ∀ v ∈ xs, setFree p v = true := by
  induction xs with
  | nil => simp [setFreeList]
  | cons v vs ih => simp [setFreeList, ih]

theorem setFreePairs_iff (p : Val → Bool) (xs : List (Key × Val)) :
    setFreePairs p xs = true ↔ ∀ kv ∈ xs, setFree p kv.2 = true := by
  induction xs with
  | nil => simp [setFreePairs]
  | cons kv kvs ih => simp [setFreePairs, ih]

theorem nonEmptyList_iff (p : Val → Bool) (xs : List Val) :
    nonEmptyList p xs = true ↔ ∀ v ∈ xs, nonEmptyStructs p v = true := by
  induction xs with
  | nil => simp [nonEmptyList]
  | cons v vs ih => simp [nonEmptyList, ih]

theorem nonEmptyPairs_iff (p : Val → Bool) (xs : List (Key × Val)) :
    nonEmptyPairs p xs = true ↔ ∀ kv ∈ xs, nonEmptyStructs p kv.2 = true := by
  induction xs with
  | nil => simp [nonEmptyPairs]
  | cons kv kvs ih => simp [nonEmptyPairs, ih]

theorem hashableL_iff (xs : List Val) :
    hashableL xs = true ↔ ∀ v ∈ xs, hashableV v = true := by
  induction xs with
  | nil => simp [hashableL]
  | cons v vs ih => simp [hashableL, ih]

theorem deepSortList_map (p : Val → Bool) (xs : List Val) :
    deepSortList p xs = xs.map (deepSort p) := by
  induction xs with
  | nil => simp [deepSortList]
  | cons v vs ih => simp [deepSortList, ih]

theorem deepSortPairs_map (p : Val → Bool) (xs : List (Key × Val)) :
    deepSortPairs p xs = xs.map (fun kv => (kv.1, deepSort p kv.2)) := by
  induction xs with
  | nil => simp [deepSortPairs]
  | cons kv kvs ih => simp [deepSortPairs, ih]

/-- An atomic non-`None` value flattens to the singleton of itself. -/
theorem flatten_atomic (p : Val → Bool) (v : Val) (hv : v ≠ .none) (hp : p v = true) :
    flatten p v = .ok [v] := by
  cases v <;> simp_all [flatten]

/-- `deepSort` leaves atomic values untouched. -/
theorem deepSort_atomic (p : Val → Bool) (v : Val) (hp : p v = true) :
    deepSort p v = v := by
  cases v <;> simp_all [deepSort]

/-- `deepSort` preserves the runtime type. -/
theorem typeTag_deepSort (p : Val → Bool) (v : Val) :
    typeTag (deepSort p v) = typeTag v := by
  cases v <;> simp only [deepSort] <;> (try split) <;> simp [typeTag]

/-- `is_scalar` only inspects the runtime type. -/
theorem is_scalar_typeTag {a b : Val} (h : typeTag a = typeTag b) :
    is_scalar a = is_scalar b := by
  cases a <;> cases b <;> simp_all [typeTag, is_scalar]

theorem is_scalar_deepSort (p : Val → Bool) (v : Val) :
    is_scalar (deepSort p v) = is_scalar v :=
  is_scalar_typeTag (typeTag_deepSort p v)

/-- `deepSort` is the identity on hashable values (they contain no dicts or
sets). -/
theorem deepSort_hashable (p : Val → Bool) :
    ∀ v, hashableV v = true → deepSort p v = v := by
  intro v
  induction v using Val.my_ind with
  | hnone => intro _; rfl
  | hint n => intro _; rfl
  | hstr s => intro _; rfl
  | hobj o => intro _; rfl
  | hlist xs ih => intro h; simp [hashableV] at h
  | hset xs ih => intro h; simp [hashableV] at h
  | hdict xs ih => intro h; simp [hashableV] at h
  | hat n f xs ih => intro h; simp [hashableV] at h
  | htuple xs ih =>
      intro h
      simp only [hashableV] at h
      have hm := (hashableL_iff xs).mp h
      simp only [deepSort, deepSortList_map]
      split
      · rfl
      · have hid : xs.map (deepSort p) = xs := by
          have h2 : xs.map (deepSort p) = xs.map id :=
            List.map_congr_left (fun v hv => by simp [ih v hv (hm v hv)])
          simpa using h2
        simp [hid]
  | hnt n f xs ih =>
      intro h
      simp only [hashableV] at h
      have hm := (hashableL_iff xs).mp h
      simp only [deepSort, deepSortList_map]
      split
      · rfl
      · have hid : xs.map (deepSort p) = xs := by
          have h2 : xs.map (deepSort p) = xs.map id :=
            List.map_congr_left (fun v hv => by simp [ih v hv (hm v hv)])
          simpa using h2
        simp [hid]

end Nifty

namespace Nifty

mutual
/-- Modelled from the spec's description of `assert_same_structure` (with the
`Absent`-vs-atomic clause amended to match the code): two values have the same
shape when both are atomic (no value comparison), or both are non-atomic with
equal runtime type, identical sorted key lists for mappings, equal child
counts, and pairwise same-shaped children in child-enumerator order. -/
def specSame (p : Val → Bool) : Val → Val → Bool
  | .list xs, .list ys =>
      if p (.list xs) || p (.list ys) then p (.list xs) && p (.list ys)
      else decide (xs.length = ys.length) && specSameList p xs ys
  | .tuple xs, .tuple ys =>
      if p (.tuple xs) || p (.tuple ys) then p (.tuple xs) && p (.tuple ys)
      else decide (xs.length = ys.length) && specSameList p xs ys
  | .set xs, .set ys =>
      if p (.set xs) || p (.set ys) then p (.set xs) && p (.set ys)
      else decide (xs.length = ys.length) && specSameList p xs ys
  | .ntuple n f xs, .ntuple m g ys =>
      if p (.ntuple n f xs) || p (.ntuple m g ys) then p (.ntuple n f xs) && p (.ntuple m g ys)
      else decide (n = m) && decide (f = g) && decide (xs.length = ys.length) &&
        specSameList p xs ys
  | .attrs n f xs, .attrs m g ys =>
      if p (.attrs n f xs) || p (.attrs m g ys) then p (.attrs n f xs) && p (.attrs m g ys)
      else decide (n = m) && decide (f = g) && decide (xs.length = ys.length) &&
        specSameList p xs ys
  | .dict xs, .dict ys =>
      if p (.dict xs) || p (.dict ys) then p (.dict xs) && p (.dict ys)
      else
        decide ((sortPairs xs).map Prod.fst = (sortPairs ys).map Prod.fst) &&
          specSamePairs p (sortPairs xs) (sortPairs ys)
  | a, b => if p a || p b then p a && p b else false
termination_by a => sizeOf a
decreasing_by
  all_goals simp_wf
  all_goals try omega
  all_goals (have h := sizeOf_sortPairs_eq xs; omega)

/-- Pairwise same shape of child lists. -/
def specSameList (p : Val → Bool) : List Val → List Val → Bool
  | [], [] => true
  | a :: as, b :: bs => specSame p a b && specSameList p as bs
  | _, _ => false
termination_by as => sizeOf as
decreasing_by
  all_goals simp_wf
  all_goals omega

/-- Pairwise same shape of sorted mapping values. -/
def specSamePairs (p : Val → Bool) : List (Key × Val) → List (Key × Val) → Bool
  | [], [] => true
  | (_, a) :: as, (_, b) :: bs => specSame p a b && specSamePairs p as bs
  | _, _ => false
termination_by as => sizeOf as
decreasing_by
  all_goals simp_wf
  all_goals try omega
  all_goals (rename_i x hx; cases x; simp; omega)
end

mutual
/-- Modelled from the spec's `has_max_depth` row: the maximum internal depth
of a structure — 0 for an atomic value, one more than the deepest child of a
traversed container (meaningful when every traversed container is
non-empty). -/
def specDepth (p : Val → Bool) : Val → Nat
  | .list xs => if p (.list xs) then 0 else 1 + specDepthList p xs
  | .tuple xs => if p (.tuple xs) then 0 else 1 + specDepthList p xs
  | .set xs => if p (.set xs) then 0 else 1 + specDepthList p xs
  | .ntuple n f xs => if p (.ntuple n f xs) then 0 else 1 + specDepthList p xs
  | .attrs n f xs => if p (.attrs n f xs) then 0 else 1 + specDepthList p xs
  | .dict xs => if p (.dict xs) then 0 else 1 + specDepthPairs p xs
  | _ => 0
termination_by v => sizeOf v
decreasing_by
  all_goals simp_wf
  all_goals omega

/-- Maximum child depth of a list (0 if empty). -/
def specDepthList (p : Val → Bool) : List Val → Nat
  | [] => 0
  | v :: vs => Nat.max (specDepth p v) (specDepthList p vs)
termination_by l => sizeOf l
decreasing_by
  all_goals simp_wf
  all_goals omega

/-- Maximum value depth of a pair list (0 if empty). -/
def specDepthPairs (p : Val → Bool) : List (Key × Val) → Nat
  | [] => 0
  | kv :: kvs => Nat.max (specDepth p kv.2) (specDepthPairs p kvs)
termination_by l => sizeOf l
decreasing_by
  all_goals simp_wf
  all_goals try omega
  all_goals (cases kv; simp; omega)
end

/-- A value that is neither atomic under `p`, nor the absent value, nor any
recognised container shape: exactly the non-atomic ints and plain objects. -/
def malformedRoot (p : Val → Bool) : Val → Bool
  | .int n => !p (.int n)
  | .obj o => !p (.obj o)
  | _ => false

/-- A predicate that classifies values by their runtime type only (the
default `is_scalar` is one such). -/
def typeDetermined (p : Val → Bool) : Prop :=
  ∀ a b, typeTag a = typeTag b → p a = p b

/-- A predicate that is unaffected by rearranging traversed dict pairs into
sorted order. -/
def deepSortStable (p : Val → Bool) : Prop :=
  ∀ v, p (deepSort p v) = p v

end Nifty

namespace Nifty

theorem flattenList_cons_ok {p : Val → Bool} {v : Val} {vs : List Val} {fl : List Val} :
    flattenList p (v :: vs) = .ok fl ↔
      ∃ a b, flatten p v = .ok a ∧ flattenList p vs = .ok b ∧ fl = a ++ b := by
  constructor
  · intro h
    cases hfv : flatten p v with
    | error e => simp [flattenList, hfv] at h
    | ok a =>
        cases hfl : flattenList p vs with
        | error e => simp [flattenList, hfv, hfl] at h
        | ok b =>
            simp [flattenList, hfv, hfl] at h
            exact ⟨a, b, rfl, rfl, h.symm⟩
  · rintro ⟨a, b, h1, h2, rfl⟩
    simp [flattenList, h1, h2]

theorem flattenList_total (p : Val → Bool) (xs : List Val)
    (ih : ∀ v ∈ xs, ∃ fl, flatten p v = .ok fl) :
    ∃ fl, flattenList p xs = .ok fl := by
  induction xs with
  | nil => exact ⟨[], by simp [flattenList]⟩
  | cons v vs ihl =>
      obtain ⟨a, ha⟩ := ih v (List.mem_cons_self v vs)
      obtain ⟨b, hb⟩ := ihl (fun w hw => ih w (List.mem_cons_of_mem v hw))
      exact ⟨a ++ b, by simp [flattenList, ha, hb]⟩

/-- `flatten` succeeds on every traversal-well-formed structure. -/
theorem flatten_total (p : Val → Bool) :
    ∀ v, WF p v = true → ∃ fl, flatten p v = .ok fl := by
  intro v
  induction v using Val.my_ind with
  | hnone => intro _; exact ⟨[], by simp [flatten]⟩
  | hint n => intro h; simp [WF] at h; exact ⟨[.int n], by simp [flatten, h]⟩
  | hobj o => intro h; simp [WF] at h; exact ⟨[.obj o], by simp [flatten, h]⟩
  | hstr s => intro h; simp [WF] at h; exact ⟨[.str s], by simp [flatten, h]⟩
  | hlist xs ih =>
      intro h
      by_cases hp : p (.list xs) = true
      · exact ⟨[.list xs], by simp [flatten, hp]⟩
      · simp [WF, hp, WFList_iff] at h
        obtain ⟨fl, hfl⟩ := flattenList_total p xs (fun v hv => ih v hv (h v hv))
        exact ⟨fl, by simp [flatten, hp, hfl]⟩
  | htuple xs ih =>
      intro h
      by_cases hp : p (.tuple xs) = true
      · exact ⟨[.tuple xs], by simp [flatten, hp]⟩
      · simp [WF, hp, WFList_iff] at h
        obtain ⟨fl, hfl⟩ := flattenList_total p xs (fun v hv => ih v hv (h v hv))
        exact ⟨fl, by simp [flatten, hp, hfl]⟩
  | hset xs ih =>
      intro h
      by_cases hp : p (.set xs) = true
      · exact ⟨[.set xs], by simp [flatten, hp]⟩
      · have hpf : p (.set xs) = false := by simpa using hp
        simp only [WF, hpf, Bool.false_or, Bool.and_eq_true] at h
        obtain ⟨⟨hh, hnd⟩, hwfl⟩ := h
        rw [WFList_iff] at hwfl
        obtain ⟨fl, hfl⟩ := flattenList_total p xs (fun v hv => ih v hv (hwfl v hv))
        exact ⟨fl, by simp [flatten, hp, hfl]⟩
  | hnt n f xs ih =>
      intro h
      by_cases hp : p (.ntuple n f xs) = true
      · exact ⟨[.ntuple n f xs], by simp [flatten, hp]⟩
      · simp [WF, hp, WFList_iff] at h
        obtain ⟨fl, hfl⟩ := flattenList_total p xs (fun v hv => ih v hv (h.2 v hv))
        exact ⟨fl, by simp [flatten, hp, hfl]⟩
  | hat n f xs ih =>
      intro h
      by_cases hp : p (.attrs n f xs) = true
      · exact ⟨[.attrs n f xs], by simp [flatten, hp]⟩
      · simp [WF, hp, WFList_iff] at h
        obtain ⟨fl, hfl⟩ := flattenList_total p xs (fun v hv => ih v hv (h.2 v hv))
        exact ⟨fl, by simp [flatten, hp, hfl]⟩
  | hdict xs ih =>
      intro h
      by_cases hp : p (.dict xs) = true
      · exact ⟨[.dict xs], by simp [flatten, hp]⟩
      · have hpf : p (.dict xs) = false := by simpa using hp
        simp only [WF, hpf, Bool.false_or, Bool.and_eq_true] at h
        obtain ⟨⟨hs, hnd⟩, hwf⟩ := h
        rw [WFPairs_iff] at hwf
        have hch : ∀ v ∈ (sortPairs xs).map Prod.snd, ∃ fl, flatten p v = .ok fl := by
          intro v hv
          obtain ⟨kv, hkv, rfl⟩ := List.mem_map.mp hv
          exact ih kv (mem_sortPairs.mp hkv) (hwf kv (mem_sortPairs.mp hkv))
        obtain ⟨fl, hfl⟩ := flattenList_total p _ hch
        exact ⟨fl, by simp [flatten, hp, hs, hfl]⟩

end Nifty

namespace Nifty

/-- C2: `reduce(func, structure, is_atomic)` equals the left fold of `func`
over `flatten(structure)` whenever there is at least one leaf, and an atomic
(one-leaf) structure is returned unchanged with `func` never consulted, and
the `Absent` structure reduces to `Absent`; but on a structure with zero
leaves (such as the empty list) the code does not return the absent/empty
sentinel — it raises `UnboundLocalError`, contradicting the claim. -/
theorem C2_reduce_behaviour :
    (∀ (f : Val → Val → Val) (p : Val → Bool) (s : Val) (x : Val) (xs : List Val),
      flatten p s = .ok (x :: xs) → reduce f p s = .ok (xs.foldl f x)) ∧
    (∀ f : Val → Val → Val, reduce f is_scalar (.list []) = .error .unboundLocal) ∧
    (∀ f : Val → Val → Val, reduce f is_scalar (.int 5) = .ok (.int 5)) ∧
    (∀ f : Val → Val → Val, reduce f is_scalar .none = .ok .none) := by
  refine ⟨?_, ?_, ?_, ?_⟩
  · intro f p s x xs h
    cases s <;> simp_all [reduce, flatten]
  · intro f; simp [reduce, flatten, flattenList, is_scalar]
  · intro f; simp [reduce, flatten, is_scalar]
  · intro f; simp [reduce]

/-- C2 witness: the fold clause of `C2_reduce_behaviour` applied at a concrete
two-leaf structure. -/
theorem C2_reduce_behaviour_witness :
    reduce (fun a b => match a, b with | .int x, .int y => .int (x + y) | _, _ => .none)
      is_scalar (.tuple [.int 2, .int 3]) = .ok (.int 5) := by
  have h := C2_reduce_behaviour.1
    (fun a b => match a, b with | .int x, .int y => .int (x + y) | _, _ => .none)
    is_scalar (.tuple [.int 2, .int 3]) (.int 2) [.int 3]
    (by simp [flatten, flattenList, is_scalar])
  simpa using h

/-- C3 counterexample: `filter` applied to a value that is neither atomic nor
absent nor a recognised container (the int `5` under an all-false predicate)
does not fail with the malformed-structure error — it silently returns the
absent value, contradicting the claim that every traversal operation fails. -/
theorem C3_counterexample :
    filter (fun _ => true) true (fun _ => false) (.int 5) = .ok Val.none ∧
      ∀ e : Err, filter (fun _ => true) true (fun _ => false) (.int 5) ≠ .error e := by
  constructor
  · simp [filter, filterHelper, fResToVal]
  · intro e h
    simp [filter, filterHelper, fResToVal] at h

/-- C3 (amended): on a value that is neither atomic, nor absent, nor a
recognised container, `flatten`, `map` and `reduce` fail with the
malformed-structure `ValueError` carrying the offending value, and
`pack_list_into` also fails but with a bare `TypeError` (from iterating a
non-iterable) that does not carry the value; `filter`, however, silently
returns the absent value `None` instead of failing. -/
theorem C3_malformed_behaviour (p : Val → Bool) (v : Val) (hm : malformedRoot p v = true)
    (fm : Val → Val) (fr : Val → Val → Val) (fb : Val → Bool) (k : Bool) (l : List Val) :
    flatten p v = .error (.malformed v) ∧
    map fm p v = .error (.malformed v) ∧
    reduce fr p v = .error (.malformed v) ∧
    filter fb k p v = .ok Val.none ∧
    pack_list_into v l p = .error .typeError := by
  cases v with
  | int n =>
      have hp : p (.int n) = false := by simpa [malformedRoot] using hm
      refine ⟨by simp [flatten, hp], by simp [map, hp], ?_, ?_, ?_⟩
      · simp [reduce, flatten, hp]
      · simp [filter, filterHelper, hp, fResToVal]
      · simp [pack_list_into, packHelper, hp]
  | obj o =>
      have hp : p (.obj o) = false := by simpa [malformedRoot] using hm
      refine ⟨by simp [flatten, hp], by simp [map, hp], ?_, ?_, ?_⟩
      · simp [reduce, flatten, hp]
      · simp [filter, filterHelper, hp, fResToVal]
      · simp [pack_list_into, packHelper, hp]
  | none => exact absurd hm (by simp [malformedRoot])
  | str s => exact absurd hm (by simp [malformedRoot])
  | list xs => exact absurd hm (by simp [malformedRoot])
  | tuple xs => exact absurd hm (by simp [malformedRoot])
  | set xs => exact absurd hm (by simp [malformedRoot])
  | dict xs => exact absurd hm (by simp [malformedRoot])
  | ntuple n f xs => exact absurd hm (by simp [malformedRoot])
  | attrs n f xs => exact absurd hm (by simp [malformedRoot])

/-- C3 witness: `C3_malformed_behaviour` at the non-atomic int `7`. -/
theorem C3_malformed_behaviour_witness :
    flatten (fun _ => false) (.int 7) = .error (.malformed (.int 7)) ∧
    map (fun v => v) (fun _ => false) (.int 7) = .error (.malformed (.int 7)) ∧
    reduce (fun a _ => a) (fun _ => false) (.int 7) = .error (.malformed (.int 7)) ∧
    filter (fun _ => true) true (fun _ => false) (.int 7) = .ok Val.none ∧
    pack_list_into (.int 7) [] (fun _ => false) = .error .typeError :=
  C3_malformed_behaviour (fun _ => false) (.int 7) (by simp [malformedRoot])
    (fun v => v) (fun a _ => a) (fun _ => true) true []

end Nifty

namespace Nifty

/-- C9 counterexample: on a mapping with mutually incomparable keys, `map`
raises the dedicated unsortable-keys `ValueError`, but `flatten` raises the
bare comparison `TypeError` instead — the failure mode is not uniform across
the operations, contradicting the claim. -/
theorem C9_counterexample :
    flatten is_scalar (.dict [(.kint 1, .int 1), (.kstr "a", .int 2)]) =
      .error .keyTypeError ∧
    map (fun v => v) is_scalar (.dict [(.kint 1, .int 1), (.kstr "a", .int 2)]) =
      .error .unsortableKeys ∧
    Err.keyTypeError ≠ Err.unsortableKeys := by
  refine ⟨?_, ?_, by simp⟩
  · simp [flatten, is_scalar, sortableKeys, keyIsInt]
  · simp [map, is_scalar, sortableKeys, keyIsInt]

/-- C9 (amended): a traversed mapping whose keys are not mutually comparable
makes every operation fail immediately with no partial result, but not
uniformly with the same error: `map`, `filter`, `pack_list_into` and
`assert_same_structure` fail with the dedicated unsortable-keys `ValueError`,
while `flatten` and `reduce` fail with the underlying bare key-comparison
`TypeError` (the raw `sorted()` call is not wrapped by `_sorted_keys`). -/
theorem C9_unsortable_behaviour (p : Val → Bool) (xs : List (Key × Val))
    (hp : p (.dict xs) = false) (hs : sortableKeys (xs.map Prod.fst) = false)
    (fm : Val → Val) (fr : Val → Val → Val) (fb : Val → Bool) (k : Bool) (l : List Val) :
    flatten p (.dict xs) = .error .keyTypeError ∧
    map fm p (.dict xs) = .error .unsortableKeys ∧
    reduce fr p (.dict xs) = .error .keyTypeError ∧
    filter fb k p (.dict xs) = .error .unsortableKeys ∧
    pack_list_into (.dict xs) l p = .error .unsortableKeys ∧
    assert_same_structure p (.dict xs) (.dict xs) = .error .unsortableKeys := by
  refine ⟨?_, ?_, ?_, ?_, ?_, ?_⟩
  · simp [flatten, hp, hs]
  · simp [map, hp, hs]
  · simp [reduce, flatten, hp, hs]
  · simp [filter, filterHelper, hp, hs]
  · simp [pack_list_into, packHelper, hp, hs]
  · simp [assert_same_structure, hp, hs, typeTag]

/-- C9 witness: `C9_unsortable_behaviour` at a concrete two-key mixed
mapping under the default predicate. -/
theorem C9_unsortable_behaviour_witness :
    flatten is_scalar (.dict [(.kint 2, .int 1), (.kstr "b", .int 2)]) =
      .error .keyTypeError ∧
    map (fun v => v) is_scalar (.dict [(.kint 2, .int 1), (.kstr "b", .int 2)]) =
      .error .unsortableKeys ∧
    reduce (fun a _ => a) is_scalar (.dict [(.kint 2, .int 1), (.kstr "b", .int 2)]) =
      .error .keyTypeError ∧
    filter (fun _ => true) true is_scalar (.dict [(.kint 2, .int 1), (.kstr "b", .int 2)]) =
      .error .unsortableKeys ∧
    pack_list_into (.dict [(.kint 2, .int 1), (.kstr "b", .int 2)]) [] is_scalar =
      .error .unsortableKeys ∧
    assert_same_structure is_scalar (.dict [(.kint 2, .int 1), (.kstr "b", .int 2)])
      (.dict [(.kint 2, .int 1), (.kstr "b", .int 2)]) = .error .unsortableKeys :=
  C9_unsortable_behaviour is_scalar [(.kint 2, .int 1), (.kstr "b", .int 2)]
    (by simp [is_scalar]) (by simp [sortableKeys, keyIsInt])
    (fun v => v) (fun a _ => a) (fun _ => true) true []

theorem filterList_congr (f g : Val → Bool) (keep : Bool) (p : Val → Bool) (xs : List Val)
    (ih : ∀ v ∈ xs, filterHelper f keep p v = filterHelper g keep p v) :
    filterList f keep p xs = filterList g keep p xs := by
  induction xs with
  | nil => simp [filterList]
  | cons v vs ihl =>
      simp only [filterList]
      rw [ih v (List.mem_cons_self v vs), ihl (fun w hw => ih w (List.mem_cons_of_mem v hw))]

theorem filterPairs_congr (f g : Val → Bool) (keep : Bool) (p : Val → Bool)
    (xs : List (Key × Val))
    (ih : ∀ kv ∈ xs, filterHelper f keep p kv.2 = filterHelper g keep p kv.2) :
    filterPairs f keep p xs = filterPairs g keep p xs := by
  induction xs with
  | nil => simp [filterPairs]
  | cons kv kvs ihl =>
      cases kv with
      | mk k v =>
        simp only [filterPairs]
        rw [ih (k, v) (List.mem_cons_self (k, v) kvs),
          ihl (fun w hw => ih w (List.mem_cons_of_mem (k, v) hw))]

/-- The filter helper's outcome depends on the leaf test only at non-`None`
values: `None` short-circuits to `FALSEY` before `func` is consulted. -/
theorem filterHelper_congr (f g : Val → Bool) (keep : Bool) (p : Val → Bool)
    (hfg : ∀ v, v ≠ Val.none → f v = g v) :
    ∀ s, filterHelper f keep p s = filterHelper g keep p s := by
  intro s
  induction s using Val.my_ind with
  | hnone => simp [filterHelper]
  | hint n => simp [filterHelper, hfg (.int n) (by simp)]
  | hstr s => simp [filterHelper, hfg (.str s) (by simp)]
  | hobj o => simp [filterHelper, hfg (.obj o) (by simp)]
  | hlist xs ih =>
      simp only [filterHelper, hfg (.list xs) (by simp)]
      rw [filterList_congr f g keep p xs ih]
  | htuple xs ih =>
      simp only [filterHelper, hfg (.tuple xs) (by simp)]
      rw [filterList_congr f g keep p xs ih]
  | hset xs ih =>
      simp only [filterHelper, hfg (.set xs) (by simp)]
      rw [filterList_congr f g keep p xs ih]
  | hnt n fl xs ih =>
      simp only [filterHelper, hfg (.ntuple n fl xs) (by simp)]
      rw [filterList_congr f g keep p xs ih]
  | hat n fl xs ih =>
      simp only [filterHelper, hfg (.attrs n fl xs) (by simp)]
      rw [filterList_congr f g keep p xs ih]
  | hdict xs ih =>
      simp only [filterHelper, hfg (.dict xs) (by simp)]
      rw [filterPairs_congr f g keep p (sortPairs xs)
        (fun kv hkv => ih kv (mem_sortPairs.mp hkv))]

/-- C10: `filter` never consults `func` at the absent value — its result is
unchanged when `func` is modified at `None` — and a `None` child is
unconditionally rejected: the helper maps `None` to the `FALSEY` sentinel, a
`None` child is omitted from rebuilt lists, sets and mappings, and becomes
the `None` placeholder inside a fixed-field record, for every `func`. -/
theorem C10_filter_ignores_none :
    (∀ (f g : Val → Bool) (keep : Bool) (p : Val → Bool) (s : Val),
      (∀ v, v ≠ Val.none → f v = g v) → filter f keep p s = filter g keep p s) ∧
    (∀ (f : Val → Bool) (keep : Bool) (p : Val → Bool),
      filterHelper f keep p Val.none = .ok .falsey) ∧
    (∀ f : Val → Bool, filter f true is_scalar (.list [Val.none]) = .ok (.list [])) ∧
    (∀ f : Val → Bool, filter f true is_scalar (.set [Val.none]) = .ok (.set [])) ∧
    (∀ f : Val → Bool, filter f true is_scalar (.dict [(.kstr "a", Val.none)]) =
      .ok (.dict [])) ∧
    (∀ f : Val → Bool, filter f true is_scalar (.ntuple "Point" ["x"] [Val.none]) =
      .ok (.ntuple "Point" ["x"] [Val.none])) := by
  refine ⟨?_, ?_, ?_, ?_, ?_, ?_⟩
  · intro f g keep p s hfg
    simp only [filter]
    rw [filterHelper_congr f g keep p hfg s]
  · intro f keep p; simp [filterHelper]
  · intro f
    simp [filter, filterHelper, filterList, is_scalar, fResToVal, shallow_structure_like]
  · intro f
    simp [filter, filterHelper, filterList, is_scalar, fResToVal, shallow_structure_like, mkSet]
  · intro f
    simp [filter, filterHelper, filterPairs, is_scalar, fResToVal, shallow_structure_like,
      sortableKeys, keyIsInt, sortPairs, insertPair]
  · intro f
    simp [filter, filterHelper, filterList, is_scalar, fResToVal, isFalsey,
      shallow_structure_like]

/-- C10 witness: the congruence clause of `C10_filter_ignores_none` applied to
two leaf tests that differ only at `None`. -/
theorem C10_filter_ignores_none_witness :
    filter (fun _ => true) true is_scalar (.list [Val.none, .int 1]) =
      filter (fun v => !(decide (v = Val.none))) true is_scalar (.list [Val.none, .int 1]) :=
  C10_filter_ignores_none.1 (fun _ => true) (fun v => !(decide (v = Val.none))) true
    is_scalar (.list [Val.none, .int 1]) (fun v hv => by simp [hv])

end Nifty

namespace Nifty

theorem filterList_length (f : Val → Bool) (keep : Bool) (p : Val → Bool) :
    ∀ (xs : List Val) (rs : List FRes), filterList f keep p xs = .ok rs → rs.length = xs.length := by
  intro xs
  induction xs with
  | nil => intro rs h; simp [filterList] at h; simp [h.symm]
  | cons v vs ih =>
      intro rs h
      cases hfv : filterHelper f keep p v with
      | error e => simp [filterList, hfv] at h
      | ok r =>
          cases hfl : filterList f keep p vs with
          | error e => simp [filterList, hfv, hfl] at h
          | ok rs2 =>
              simp [filterList, hfv, hfl] at h
              subst h
              simp [ih rs2 hfl]

/-- C7: a fixed-field record (namedtuple or attrs object) that survives
`filter` keeps exactly its original field count: the surviving record is
rebuilt from one result per field, with every rejected field replaced by the
`None` placeholder (`fResToVal` maps the `FALSEY` sentinel to `None`) rather
than removed. -/
theorem C7_filter_record_arity :
    (∀ (f : Val → Bool) (keep : Bool) (p : Val → Bool) (nm : String) (fl : List String)
        (vs : List Val) (r : FRes),
      p (.ntuple nm fl vs) = false →
      filterHelper f keep p (.ntuple nm fl vs) = .ok r → r ≠ .falsey →
      ∃ rs, filterList f keep p vs = .ok rs ∧
        r = .val (.ntuple nm fl (rs.map fResToVal)) ∧
        (rs.map fResToVal).length = vs.length) ∧
    (∀ (f : Val → Bool) (keep : Bool) (p : Val → Bool) (nm : String) (fl : List String)
        (vs : List Val) (r : FRes),
      p (.attrs nm fl vs) = false →
      filterHelper f keep p (.attrs nm fl vs) = .ok r → r ≠ .falsey →
      ∃ rs, filterList f keep p vs = .ok rs ∧
        r = .val (.attrs nm fl (rs.map fResToVal)) ∧
        (rs.map fResToVal).length = vs.length) := by
  constructor
  · intro f keep p nm fl vs r hp h hr
    simp only [filterHelper, hp, Bool.false_eq_true, if_false] at h
    cases hfl : filterList f keep p vs with
    | error e => simp [hfl] at h
    | ok rs =>
        simp only [hfl, except_ok_bind] at h
        split at h
        · cases hssl : shallow_structure_like is_scalar (.ntuple nm fl vs)
              (.lst (rs.map fResToVal)) with
          | error e => simp [hssl] at h
          | ok t =>
              simp only [hssl, except_ok_bind, except_pure_eq, Except.ok.injEq] at h
              have hlen := filterList_length f keep p vs rs hfl
              simp [shallow_structure_like, is_scalar] at hssl
              split at hssl
              · have ht : t = .ntuple nm fl (rs.map fResToVal) := by
                  simpa using hssl.symm
                refine ⟨rs, rfl, ?_, by simp [hlen]⟩
                rw [← h, ht]
              · simp at hssl
        · simp only [except_pure_eq, Except.ok.injEq] at h
          exact absurd h.symm hr
  · intro f keep p nm fl vs r hp h hr
    simp only [filterHelper, hp, Bool.false_eq_true, if_false] at h
    cases hfl : filterList f keep p vs with
    | error e => simp [hfl] at h
    | ok rs =>
        simp only [hfl, except_ok_bind] at h
        split at h
        · cases hssl : shallow_structure_like is_scalar (.attrs nm fl vs)
              (.lst (rs.map fResToVal)) with
          | error e => simp [hssl] at h
          | ok t =>
              simp only [hssl, except_ok_bind, except_pure_eq, Except.ok.injEq] at h
              have hlen := filterList_length f keep p vs rs hfl
              simp [shallow_structure_like, is_scalar] at hssl
              split at hssl
              · have ht : t = .attrs nm fl (rs.map fResToVal) := by
                  simpa using hssl.symm
                refine ⟨rs, rfl, ?_, by simp [hlen]⟩
                rw [← h, ht]
              · simp at hssl
        · simp only [except_pure_eq, Except.ok.injEq] at h
          exact absurd h.symm hr

/-- C7 witness: `C7_filter_record_arity` at `Point(1, 2)` with an
even-numbers test: the rejected field `1` becomes `None` and the field count
stays 2. -/
theorem C7_filter_record_arity_witness :
    ∃ rs, filterList (fun v => match v with | .int n => decide (n % 2 = 0) | _ => false)
        true is_scalar [.int 1, .int 2] = .ok rs ∧
      FRes.val (.ntuple "Point" ["x", "y"] [Val.none, .int 2]) =
        .val (.ntuple "Point" ["x", "y"] (rs.map fResToVal)) ∧
      (rs.map fResToVal).length = [Val.int 1, Val.int 2].length := by
  have h := C7_filter_record_arity.1
    (fun v => match v with | .int n => decide (n % 2 = 0) | _ => false)
    true is_scalar "Point" ["x", "y"] [.int 1, .int 2]
    (.val (.ntuple "Point" ["x", "y"] [Val.none, .int 2]))
    (by simp [is_scalar])
    (by simp +decide [filterHelper, filterList, is_scalar, shallow_structure_like, fResToVal])
    (by simp)
  exact h

end Nifty

namespace Nifty

theorem noneFree_ne_none {p : Val → Bool} {v : Val} (h : noneFree p v = true) : v ≠ .none := by
  intro he; subst he; simp [noneFree] at h

theorem packList_spec (p : Val → Bool) (cs : List Val)
    (ihP : ∀ c ∈ cs, WF p c = true → noneFree p c = true →
      ∀ fl, flatten p c = .ok fl → ∀ l i, i ≤ l.length →
        (i + fl.length ≤ l.length → ∃ t, packHelper p l c i = .ok (i + fl.length, t)) ∧
        (l.length < i + fl.length → packHelper p l c i = .error .indexError))
    (hwf : ∀ c ∈ cs, WF p c = true) (hnf : ∀ c ∈ cs, noneFree p c = true) :
    ∀ fl, flattenList p cs = .ok fl → ∀ (l : List Val) (i : Nat), i ≤ l.length →
      (i + fl.length ≤ l.length →
        ∃ ts, packList p l cs i = .ok (i + fl.length, ts) ∧ ts.length = cs.length) ∧
      (l.length < i + fl.length → packList p l cs i = .error .indexError) := by
  induction cs with
  | nil =>
      intro fl hfl l i hi
      simp [flattenList] at hfl
      subst hfl
      constructor
      · intro _; exact ⟨[], by simp [packList], rfl⟩
      · intro hshort; simp at hshort; omega
  | cons c cs ihl =>
      intro fl hfl l i hi
      obtain ⟨a, b, ha, hb, rfl⟩ := flattenList_cons_ok.mp hfl
      have hwfc := hwf c (List.mem_cons_self c cs)
      have hnfc := hnf c (List.mem_cons_self c cs)
      have ihr := ihl (fun w hw => ihP w (List.mem_cons_of_mem c hw))
        (fun w hw => hwf w (List.mem_cons_of_mem c hw))
        (fun w hw => hnf w (List.mem_cons_of_mem c hw)) b hb
      by_cases hp : p c = true
      · have hc1 : a = [c] := by
          rw [flatten_atomic p c (noneFree_ne_none hnfc) hp] at ha
          simpa using ha.symm
        subst hc1
        constructor
        · intro hlen
          simp only [List.length_append, List.length_cons, List.length_nil] at hlen ⊢
          have hi2 : i < l.length := by omega
          obtain ⟨ts, hts, htsl⟩ := (ihr l (i + 1) (by omega)).1 (by omega)
          have harith : i + (1 + b.length) = i + 1 + b.length := by omega
          refine ⟨l.get ⟨i, hi2⟩ :: ts, ?_, by simp [htsl]⟩
          rw [harith]
          simp only [packList, hp, if_true, List.get?_eq_get hi2, hts, except_ok_bind,
            except_pure_eq]
        · intro hshort
          simp only [List.length_append, List.length_cons, List.length_nil] at hshort
          by_cases hi2 : i < l.length
          · obtain hrec := (ihr l (i + 1) (by omega)).2 (by omega)
            simp only [packList, hp, if_true, List.get?_eq_get hi2, hrec, except_error_bind]
          · have hge : l.length ≤ i := by omega
            simp only [packList, hp, if_true, List.get?_eq_none.mpr hge]
      · have hpf : p c = false := by simpa using hp
        have hPc := ihP c (List.mem_cons_self c cs) hwfc hnfc a ha
        constructor
        · intro hlen
          simp only [List.length_append] at hlen ⊢
          obtain ⟨t, ht⟩ := (hPc l i hi).1 (by omega)
          obtain ⟨ts, hts, htsl⟩ := (ihr l (i + a.length) (by omega)).1 (by omega)
          have harith : i + (a.length + b.length) = i + a.length + b.length := by omega
          refine ⟨t :: ts, ?_, by simp [htsl]⟩
          rw [harith]
          simp only [packList, hpf, Bool.false_eq_true, if_false, ht, except_ok_bind, hts,
            except_pure_eq]
        · intro hshort
          simp only [List.length_append] at hshort
          by_cases hi2 : i + a.length ≤ l.length
          · obtain ⟨t, ht⟩ := (hPc l i hi).1 hi2
            obtain hrec := (ihr l (i + a.length) hi2).2 (by omega)
            simp only [packList, hpf, Bool.false_eq_true, if_false, ht, except_ok_bind, hrec,
              except_error_bind]
          · obtain herr := (hPc l i hi).2 (by omega)
            simp only [packList, hpf, Bool.false_eq_true, if_false, herr, except_error_bind]

end Nifty

namespace Nifty

theorem packHelper_atomic (p : Val → Bool) (l : List Val) (v : Val) (i : Nat)
    (hp : p v = true) :
    (∀ hi : i < l.length, packHelper p l v i = .ok (i + 1, l.get ⟨i, hi⟩)) ∧
    (l.length ≤ i → packHelper p l v i = .error .indexError) := by
  constructor
  · intro hi
    cases v <;> simp [packHelper, hp, List.getElem?_eq_getElem hi, List.get_eq_getElem]
  · intro hi
    cases v <;> simp [packHelper, hp, List.getElem?_eq_none_iff.mpr hi]

theorem packHelper_spec_atomic (p : Val → Bool) (l : List Val) (v : Val) (i : Nat)
    (hp : p v = true) (hv : v ≠ .none) (fl : List Val) (hfl : flatten p v = .ok fl)
    (hi : i ≤ l.length) :
    (i + fl.length ≤ l.length → ∃ t, packHelper p l v i = .ok (i + fl.length, t)) ∧
    (l.length < i + fl.length → packHelper p l v i = .error .indexError) := by
  have hfl1 : fl = [v] := by
    rw [flatten_atomic p v hv hp] at hfl
    simpa using hfl.symm
  subst hfl1
  constructor
  · intro h
    simp only [List.length_cons, List.length_nil] at h ⊢
    have hi2 : i < l.length := by omega
    exact ⟨l.get ⟨i, hi2⟩, (packHelper_atomic p l v i hp).1 hi2⟩
  · intro h
    simp only [List.length_cons, List.length_nil] at h
    exact (packHelper_atomic p l v i hp).2 (by omega)

theorem packHelper_spec (p : Val → Bool) :
    ∀ v, WF p v = true → noneFree p v = true →
      ∀ fl, flatten p v = .ok fl → ∀ (l : List Val) (i : Nat), i ≤ l.length →
        (i + fl.length ≤ l.length → ∃ t, packHelper p l v i = .ok (i + fl.length, t)) ∧
        (l.length < i + fl.length → packHelper p l v i = .error .indexError) := by
  intro v
  induction v using Val.my_ind with
  | hnone => intro _ hnf; exact absurd rfl (noneFree_ne_none hnf)
  | hint n =>
      intro hwf hnf fl hfl l i hi
      exact packHelper_spec_atomic p l _ i (by simpa [WF] using hwf) (by simp) fl hfl hi
  | hstr s =>
      intro hwf hnf fl hfl l i hi
      exact packHelper_spec_atomic p l _ i (by simpa [WF] using hwf) (by simp) fl hfl hi
  | hobj o =>
      intro hwf hnf fl hfl l i hi
      exact packHelper_spec_atomic p l _ i (by simpa [WF] using hwf) (by simp) fl hfl hi
  | hlist xs ih =>
      intro hwf hnf fl hfl l i hi
      by_cases hp : p (.list xs) = true
      · exact packHelper_spec_atomic p l _ i hp (by simp) fl hfl hi
      · have hpf : p (.list xs) = false := by simpa using hp
        simp only [WF, hpf, Bool.false_or] at hwf
        rw [WFList_iff] at hwf
        simp only [noneFree, hpf, Bool.false_or] at hnf
        rw [noneFreeList_iff] at hnf
        simp only [flatten, hpf, Bool.false_eq_true, if_false] at hfl
        have hls := packList_spec p xs ih hwf hnf fl hfl l i hi
        constructor
        · intro hlen
          obtain ⟨ts, hts, htsl⟩ := hls.1 hlen
          refine ⟨.list ts, ?_⟩
          simp [packHelper, hpf, hts, shallow_structure_like]
        · intro hshort
          obtain herr := hls.2 hshort
          simp [packHelper, hpf, herr]
  | htuple xs ih =>
      intro hwf hnf fl hfl l i hi
      by_cases hp : p (.tuple xs) = true
      · exact packHelper_spec_atomic p l _ i hp (by simp) fl hfl hi
      · have hpf : p (.tuple xs) = false := by simpa using hp
        simp only [WF, hpf, Bool.false_or] at hwf
        rw [WFList_iff] at hwf
        simp only [noneFree, hpf, Bool.false_or] at hnf
        rw [noneFreeList_iff] at hnf
        simp only [flatten, hpf, Bool.false_eq_true, if_false] at hfl
        have hls := packList_spec p xs ih hwf hnf fl hfl l i hi
        constructor
        · intro hlen
          obtain ⟨ts, hts, htsl⟩ := hls.1 hlen
          refine ⟨.tuple ts, ?_⟩
          simp [packHelper, hpf, hts, shallow_structure_like]
        · intro hshort
          obtain herr := hls.2 hshort
          simp [packHelper, hpf, herr]
  | hset xs ih =>
      intro hwf hnf fl hfl l i hi
      by_cases hp : p (.set xs) = true
      · exact packHelper_spec_atomic p l _ i hp (by simp) fl hfl hi
      · have hpf : p (.set xs) = false := by simpa using hp
        simp only [WF, hpf, Bool.false_or, Bool.and_eq_true] at hwf
        obtain ⟨⟨hh, hnd⟩, hwfl⟩ := hwf
        rw [WFList_iff] at hwfl
        simp only [noneFree, hpf, Bool.false_or] at hnf
        rw [noneFreeList_iff] at hnf
        simp only [flatten, hpf, Bool.false_eq_true, if_false] at hfl
        have hls := packList_spec p xs ih hwfl hnf fl hfl l i hi
        constructor
        · intro hlen
          obtain ⟨ts, hts, htsl⟩ := hls.1 hlen
          refine ⟨.set (mkSet ts), ?_⟩
          simp [packHelper, hpf, hts, shallow_structure_like]
        · intro hshort
          obtain herr := hls.2 hshort
          simp [packHelper, hpf, herr]
  | hnt n f xs ih =>
      intro hwf hnf fl hfl l i hi
      by_cases hp : p (.ntuple n f xs) = true
      · exact packHelper_spec_atomic p l _ i hp (by simp) fl hfl hi
      · have hpf : p (.ntuple n f xs) = false := by simpa using hp
        simp only [WF, hpf, Bool.false_or, Bool.and_eq_true, decide_eq_true_eq] at hwf
        obtain ⟨hfx, hwfl⟩ := hwf
        rw [WFList_iff] at hwfl
        simp only [noneFree, hpf, Bool.false_or] at hnf
        rw [noneFreeList_iff] at hnf
        simp only [flatten, hpf, Bool.false_eq_true, if_false] at hfl
        have hls := packList_spec p xs ih hwfl hnf fl hfl l i hi
        constructor
        · intro hlen
          obtain ⟨ts, hts, htsl⟩ := hls.1 hlen
          refine ⟨.ntuple n f ts, ?_⟩
          have hlen2 : ts.length = f.length := by omega
          simp [packHelper, hpf, hts, shallow_structure_like, hlen2]
        · intro hshort
          obtain herr := hls.2 hshort
          simp [packHelper, hpf, herr]
  | hat n f xs ih =>
      intro hwf hnf fl hfl l i hi
      by_cases hp : p (.attrs n f xs) = true
      · exact packHelper_spec_atomic p l _ i hp (by simp) fl hfl hi
      · have hpf : p (.attrs n f xs) = false := by simpa using hp
        simp only [WF, hpf, Bool.false_or, Bool.and_eq_true, decide_eq_true_eq] at hwf
        obtain ⟨hfx, hwfl⟩ := hwf
        rw [WFList_iff] at hwfl
        simp only [noneFree, hpf, Bool.false_or] at hnf
        rw [noneFreeList_iff] at hnf
        simp only [flatten, hpf, Bool.false_eq_true, if_false] at hfl
        have hls := packList_spec p xs ih hwfl hnf fl hfl l i hi
        constructor
        · intro hlen
          obtain ⟨ts, hts, htsl⟩ := hls.1 hlen
          refine ⟨.attrs n f ts, ?_⟩
          have hlen2 : ts.length = f.length := by omega
          simp [packHelper, hpf, hts, shallow_structure_like, hlen2]
        · intro hshort
          obtain herr := hls.2 hshort
          simp [packHelper, hpf, herr]
  | hdict xs ih =>
      intro hwf hnf fl hfl l i hi
      by_cases hp : p (.dict xs) = true
      · exact packHelper_spec_atomic p l _ i hp (by simp) fl hfl hi
      · have hpf : p (.dict xs) = false := by simpa using hp
        simp only [WF, hpf, Bool.false_or, Bool.and_eq_true] at hwf
        obtain ⟨⟨hs, hnd⟩, hwfp⟩ := hwf
        rw [WFPairs_iff] at hwfp
        simp only [noneFree, hpf, Bool.false_or] at hnf
        rw [noneFreePairs_iff] at hnf
        simp only [flatten, hpf, Bool.false_eq_true, if_false, hs, if_true] at hfl
        have hih : ∀ w ∈ (sortPairs xs).map Prod.snd, WF p w = true → noneFree p w = true →
            ∀ fl2, flatten p w = .ok fl2 → ∀ l2 i2, i2 ≤ l2.length →
              (i2 + fl2.length ≤ l2.length →
                ∃ t, packHelper p l2 w i2 = .ok (i2 + fl2.length, t)) ∧
              (l2.length < i2 + fl2.length → packHelper p l2 w i2 = .error .indexError) := by
          intro w hw
          obtain ⟨kv, hkv, rfl⟩ := List.mem_map.mp hw
          exact ih kv (mem_sortPairs.mp hkv)
        have hwfc : ∀ w ∈ (sortPairs xs).map Prod.snd, WF p w = true := by
          intro w hw
          obtain ⟨kv, hkv, rfl⟩ := List.mem_map.mp hw
          exact hwfp kv (mem_sortPairs.mp hkv)
        have hnfc : ∀ w ∈ (sortPairs xs).map Prod.snd, noneFree p w = true := by
          intro w hw
          obtain ⟨kv, hkv, rfl⟩ := List.mem_map.mp hw
          exact hnf kv (mem_sortPairs.mp hkv)
        have hls := packList_spec p _ hih hwfc hnfc fl hfl l i hi
        constructor
        · intro hlen
          obtain ⟨ts, hts, htsl⟩ := hls.1 hlen
          refine ⟨.dict (((sortPairs xs).map Prod.fst).zip ts), ?_⟩
          simp [packHelper, hpf, hs, hts, shallow_structure_like]
        · intro hshort
          obtain herr := hls.2 hshort
          simp [packHelper, hpf, hs, herr]

end Nifty

namespace Nifty

/-- C8 counterexample: the claim ties pack's success to the number of leaves,
but `pack_list_into` consumes one flat element per `None` child as well.
Here the structure `[None, None]` has zero leaves and the flat list has one
element — more than the leaves — yet the call fails with `IndexError`
instead of succeeding and ignoring the excess. -/
theorem C8_counterexample :
    flatten is_scalar (.list [Val.none, Val.none]) = .ok [] ∧
    pack_list_into (.list [Val.none, Val.none]) [.int 9] is_scalar = .error .indexError := by
  constructor
  · simp [flatten, flattenList, is_scalar]
  · simp [pack_list_into, packHelper, packList, is_scalar]

/-- C8 (amended): for a traversal-well-formed structure with no `None` at any
traversed position, `pack_list_into(structure, flat_list)` fails with
`IndexError` (the `ArityMismatch` failure) exactly on the too-short side:
fewer flat elements than leaves means failure, and at least as many means
the call succeeds, silently ignoring any excess elements.  Structures with
`None` children fall outside this accounting because pack consumes a flat
element at every `None` position while `flatten` skips them. -/
theorem C8_pack_arity (p : Val → Bool) (s : Val) (hwf : WF p s = true)
    (hnf : noneFree p s = true) (fl : List Val) (hfl : flatten p s = .ok fl)
    (l : List Val) :
    (l.length < fl.length → pack_list_into s l p = .error .indexError) ∧
    (fl.length ≤ l.length → ∃ t, pack_list_into s l p = .ok t) := by
  have hs := packHelper_spec p s hwf hnf fl hfl l 0 (by omega)
  have hne := noneFree_ne_none hnf
  constructor
  · intro h
    have herr := hs.2 (by omega)
    cases s <;> first
      | exact absurd rfl hne
      | simp [pack_list_into, herr]
  · intro h
    obtain ⟨t, ht⟩ := hs.1 (by omega)
    refine ⟨t, ?_⟩
    cases s <;> first
      | exact absurd rfl hne
      | simp [pack_list_into, ht]

/-- C8 witness: `C8_pack_arity` on the two-leaf list `[1, 2]`: a one-element
flat list fails with `IndexError`; a three-element flat list succeeds. -/
theorem C8_pack_arity_witness :
    pack_list_into (.list [.int 1, .int 2]) [.int 9] is_scalar = .error .indexError ∧
    ∃ t, pack_list_into (.list [.int 1, .int 2]) [.int 9, .int 8, .int 7] is_scalar = .ok t := by
  constructor
  · exact (C8_pack_arity is_scalar (.list [.int 1, .int 2])
      (by simp [WF, WFList, is_scalar])
      (by simp [noneFree, noneFreeList, is_scalar]) [.int 1, .int 2]
      (by simp [flatten, flattenList, is_scalar]) [.int 9]).1 (by simp)
  · exact (C8_pack_arity is_scalar (.list [.int 1, .int 2])
      (by simp [WF, WFList, is_scalar])
      (by simp [noneFree, noneFreeList, is_scalar]) [.int 1, .int 2]
      (by simp [flatten, flattenList, is_scalar]) [.int 9, .int 8, .int 7]).2 (by simp)

end Nifty

namespace Nifty

theorem read_head {l : List Val} {i : Nat} {c : Val} (hi : i < l.length)
    (h : (l.drop i).take 1 = [c]) : l.get? i = some c := by
  have hsome : (l.drop i).get? 0 = some c := by
    cases hd : l.drop i with
    | nil => rw [hd] at h; simp at h
    | cons x t =>
        rw [hd] at h
        simp at h
        simp [h]
  have hdrop := List.get?_drop l i 0
  rw [hsome] at hdrop
  simpa using hdrop.symm

theorem readSplit {l : List Val} {i : Nat} {a b : List Val}
    (hlen : i + (a.length + b.length) ≤ l.length)
    (hread : (l.drop i).take (a.length + b.length) = a ++ b) :
    (l.drop i).take a.length = a ∧ (l.drop (i + a.length)).take b.length = b := by
  constructor
  · have h1 := congrArg (fun x => x.take a.length) hread
    simp only [List.take_take, List.take_left] at h1
    have hmin : min a.length (a.length + b.length) = a.length := by omega
    rw [hmin] at h1
    exact h1
  · have h2 := congrArg (fun x => x.drop a.length) hread
    simp only [List.drop_take, List.drop_drop, List.drop_left] at h2
    have harith : a.length + b.length - a.length = b.length := by omega
    rw [harith] at h2
    exact h2

theorem zip_fst_map_snd (g : Val → Val) :
    ∀ l : List (Key × Val),
      (l.map Prod.fst).zip ((l.map Prod.snd).map g) = l.map (fun kv => (kv.1, g kv.2)) := by
  intro l
  induction l with
  | nil => simp
  | cons kv kvs ih =>
      cases kv
      simp only [List.map_map] at ih ⊢
      simp [ih]

theorem sortableKeys_perm {ks1 ks2 : List Key} (h : List.Perm ks1 ks2) :
    sortableKeys ks1 = sortableKeys ks2 := by
  have hall : ∀ f : Key → Bool, (ks1.all f = true ↔ ks2.all f = true) := by
    intro f
    simp only [List.all_eq_true]
    exact ⟨fun H k hk => H k (h.mem_iff.mpr hk), fun H k hk => H k (h.mem_iff.mp hk)⟩
  have e1 : ks1.all keyIsInt = ks2.all keyIsInt := by
    cases hx : ks2.all keyIsInt
    · cases hy : ks1.all keyIsInt
      · rfl
      · exact absurd ((hall keyIsInt).mp hy) (by simp [hx])
    · exact (hall keyIsInt).mpr hx
  have e2 : ks1.all (fun k => !keyIsInt k) = ks2.all (fun k => !keyIsInt k) := by
    cases hx : ks2.all (fun k => !keyIsInt k)
    · cases hy : ks1.all (fun k => !keyIsInt k)
      · rfl
      · exact absurd ((hall (fun k => !keyIsInt k)).mp hy) (by simp [hx])
    · exact (hall (fun k => !keyIsInt k)).mpr hx
  rw [sortableKeys, sortableKeys, e1, e2]

/-- The sorted key list of the deep-sorted pairs equals the sorted key list of
the original pairs. -/
theorem deepSort_dict_keys (p : Val → Bool) (xs : List (Key × Val)) :
    sortPairs (deepSortPairs p xs) = (sortPairs xs).map (fun kv => (kv.1, deepSort p kv.2)) := by
  rw [deepSortPairs_map, sortPairs_map_val (fun _ v => deepSort p v) xs]

theorem packExactList (p : Val → Bool) (cs : List Val)
    (ihP : ∀ c ∈ cs, WF p c = true → noneFree p c = true →
      ∀ fl, flatten p c = .ok fl → ∀ l i, i + fl.length ≤ l.length →
        (l.drop i).take fl.length = fl →
        packHelper p l c i = .ok (i + fl.length, deepSort p c))
    (hwf : ∀ c ∈ cs, WF p c = true) (hnf : ∀ c ∈ cs, noneFree p c = true) :
    ∀ fl, flattenList p cs = .ok fl → ∀ (l : List Val) (i : Nat),
      i + fl.length ≤ l.length → (l.drop i).take fl.length = fl →
      packList p l cs i = .ok (i + fl.length, cs.map (deepSort p)) := by
  induction cs with
  | nil =>
      intro fl hfl l i hlen hread
      simp [flattenList] at hfl
      subst hfl
      simp [packList]
  | cons c cs ihl =>
      intro fl hfl l i hlen hread
      obtain ⟨a, b, ha, hb, rfl⟩ := flattenList_cons_ok.mp hfl
      have hwfc := hwf c (List.mem_cons_self c cs)
      have hnfc := hnf c (List.mem_cons_self c cs)
      have hlen2 : i + (a.length + b.length) ≤ l.length := by simpa using hlen
      obtain ⟨hra, hrb⟩ := readSplit hlen2 (by simpa using hread)
      have ihr := ihl (fun w hw => ihP w (List.mem_cons_of_mem c hw))
        (fun w hw => hwf w (List.mem_cons_of_mem c hw))
        (fun w hw => hnf w (List.mem_cons_of_mem c hw)) b hb
      by_cases hp : p c = true
      · have hc1 : a = [c] := by
          rw [flatten_atomic p c (noneFree_ne_none hnfc) hp] at ha
          simpa using ha.symm
        subst hc1
        have hi2 : i < l.length := by simp at hlen2; omega
        have hg : l.get? i = some c := read_head hi2 (by simpa using hra)
        have hrec := ihr l (i + 1) (by simp at hlen2; omega) (by simpa using hrb)
        have harith : i + ([c] ++ b).length = i + 1 + b.length := by
          simp only [List.length_append, List.length_cons, List.length_nil]; omega
        rw [harith]
        have hds : deepSort p c = c := deepSort_atomic p c hp
        simp only [List.map_cons, hds]
        simp only [packList, hp, if_true, hg, hrec, except_ok_bind, except_pure_eq]
      · have hpf : p c = false := by simpa using hp
        have hcall := ihP c (List.mem_cons_self c cs) hwfc hnfc a ha l i (by omega) hra
        have hrec := ihr l (i + a.length) (by omega) hrb
        have harith : i + (a ++ b).length = i + a.length + b.length := by
          simp only [List.length_append]; omega
        rw [harith]
        simp only [packList, hpf, Bool.false_eq_true, if_false, hcall, except_ok_bind, hrec,
          except_pure_eq, List.map_cons]

end Nifty

namespace Nifty

theorem packExact_atomic (p : Val → Bool) (l : List Val) (v : Val) (i : Nat)
    (hp : p v = true) (hv : v ≠ .none) (fl : List Val) (hfl : flatten p v = .ok fl)
    (hlen : i + fl.length ≤ l.length) (hread : (l.drop i).take fl.length = fl) :
    packHelper p l v i = .ok (i + fl.length, deepSort p v) := by
  have hfl1 : fl = [v] := by
    rw [flatten_atomic p v hv hp] at hfl
    simpa using hfl.symm
  subst hfl1
  have hi2 : i < l.length := by simp at hlen; omega
  have hg : l.get? i = some v := read_head hi2 (by simpa using hread)
  have hds : deepSort p v = v := deepSort_atomic p v hp
  have hg2 : l[i]? = some v := by simpa using hg
  simp only [List.length_cons, List.length_nil, hds]
  cases v <;> simp [packHelper, hp, hg2]

theorem packExact (p : Val → Bool) :
    ∀ v, WF p v = true → noneFree p v = true →
      ∀ fl, flatten p v = .ok fl → ∀ (l : List Val) (i : Nat),
        i + fl.length ≤ l.length → (l.drop i).take fl.length = fl →
        packHelper p l v i = .ok (i + fl.length, deepSort p v) := by
  intro v
  induction v using Val.my_ind with
  | hnone => intro _ hnf; exact absurd rfl (noneFree_ne_none hnf)
  | hint n =>
      intro hwf hnf fl hfl l i hlen hread
      exact packExact_atomic p l _ i (by simpa [WF] using hwf) (by simp) fl hfl hlen hread
  | hstr s =>
      intro hwf hnf fl hfl l i hlen hread
      exact packExact_atomic p l _ i (by simpa [WF] using hwf) (by simp) fl hfl hlen hread
  | hobj o =>
      intro hwf hnf fl hfl l i hlen hread
      exact packExact_atomic p l _ i (by simpa [WF] using hwf) (by simp) fl hfl hlen hread
  | hlist xs ih =>
      intro hwf hnf fl hfl l i hlen hread
      by_cases hp : p (.list xs) = true
      · exact packExact_atomic p l _ i hp (by simp) fl hfl hlen hread
      · have hpf : p (.list xs) = false := by simpa using hp
        simp only [WF, hpf, Bool.false_or] at hwf
        rw [WFList_iff] at hwf
        simp only [noneFree, hpf, Bool.false_or] at hnf
        rw [noneFreeList_iff] at hnf
        simp only [flatten, hpf, Bool.false_eq_true, if_false] at hfl
        have hls := packExactList p xs ih hwf hnf fl hfl l i hlen hread
        simp only [deepSort, hpf, Bool.false_eq_true, if_false, deepSortList_map]
        simp [packHelper, hpf, hls, shallow_structure_like]
  | htuple xs ih =>
      intro hwf hnf fl hfl l i hlen hread
      by_cases hp : p (.tuple xs) = true
      · exact packExact_atomic p l _ i hp (by simp) fl hfl hlen hread
      · have hpf : p (.tuple xs) = false := by simpa using hp
        simp only [WF, hpf, Bool.false_or] at hwf
        rw [WFList_iff] at hwf
        simp only [noneFree, hpf, Bool.false_or] at hnf
        rw [noneFreeList_iff] at hnf
        simp only [flatten, hpf, Bool.false_eq_true, if_false] at hfl
        have hls := packExactList p xs ih hwf hnf fl hfl l i hlen hread
        simp only [deepSort, hpf, Bool.false_eq_true, if_false, deepSortList_map]
        simp [packHelper, hpf, hls, shallow_structure_like]
  | hset xs ih =>
      intro hwf hnf fl hfl l i hlen hread
      by_cases hp : p (.set xs) = true
      · exact packExact_atomic p l _ i hp (by simp) fl hfl hlen hread
      · have hpf : p (.set xs) = false := by simpa using hp
        simp only [WF, hpf, Bool.false_or, Bool.and_eq_true] at hwf
        obtain ⟨⟨hh, hnd⟩, hwfl⟩ := hwf
        rw [WFList_iff] at hwfl
        simp only [noneFree, hpf, Bool.false_or] at hnf
        rw [noneFreeList_iff] at hnf
        simp only [flatten, hpf, Bool.false_eq_true, if_false] at hfl
        have hls := packExactList p xs ih hwfl hnf fl hfl l i hlen hread
        have hid : xs.map (deepSort p) = xs := by
          have hm := (hashableL_iff xs).mp hh
          have h2 : xs.map (deepSort p) = xs.map id :=
            List.map_congr_left (fun v hv => by simp [deepSort_hashable p v (hm v hv)])
          simpa using h2
        simp only [deepSort, hpf, Bool.false_eq_true, if_false, deepSortList_map, hid]
        simp [packHelper, hpf, hls, shallow_structure_like, hid, mkSet_of_nodup xs hnd]
  | hnt n f xs ih =>
      intro hwf hnf fl hfl l i hlen hread
      by_cases hp : p (.ntuple n f xs) = true
      · exact packExact_atomic p l _ i hp (by simp) fl hfl hlen hread
      · have hpf : p (.ntuple n f xs) = false := by simpa using hp
        simp only [WF, hpf, Bool.false_or, Bool.and_eq_true, decide_eq_true_eq] at hwf
        obtain ⟨hfx, hwfl⟩ := hwf
        rw [WFList_iff] at hwfl
        simp only [noneFree, hpf, Bool.false_or] at hnf
        rw [noneFreeList_iff] at hnf
        simp only [flatten, hpf, Bool.false_eq_true, if_false] at hfl
        have hls := packExactList p xs ih hwfl hnf fl hfl l i hlen hread
        have hlen2 : (xs.map (deepSort p)).length = f.length := by simp [hfx]
        simp only [deepSort, hpf, Bool.false_eq_true, if_false, deepSortList_map]
        simp [packHelper, hpf, hls, shallow_structure_like, hlen2]
  | hat n f xs ih =>
      intro hwf hnf fl hfl l i hlen hread
      by_cases hp : p (.attrs n f xs) = true
      · exact packExact_atomic p l _ i hp (by simp) fl hfl hlen hread
      · have hpf : p (.attrs n f xs) = false := by simpa using hp
        simp only [WF, hpf, Bool.false_or, Bool.and_eq_true, decide_eq_true_eq] at hwf
        obtain ⟨hfx, hwfl⟩ := hwf
        rw [WFList_iff] at hwfl
        simp only [noneFree, hpf, Bool.false_or] at hnf
        rw [noneFreeList_iff] at hnf
        simp only [flatten, hpf, Bool.false_eq_true, if_false] at hfl
        have hls := packExactList p xs ih hwfl hnf fl hfl l i hlen hread
        have hlen2 : (xs.map (deepSort p)).length = f.length := by simp [hfx]
        simp only [deepSort, hpf, Bool.false_eq_true, if_false, deepSortList_map]
        simp [packHelper, hpf, hls, shallow_structure_like, hlen2]
  | hdict xs ih =>
      intro hwf hnf fl hfl l i hlen hread
      by_cases hp : p (.dict xs) = true
      · exact packExact_atomic p l _ i hp (by simp) fl hfl hlen hread
      · have hpf : p (.dict xs) = false := by simpa using hp
        simp only [WF, hpf, Bool.false_or, Bool.and_eq_true] at hwf
        obtain ⟨⟨hs, hnd⟩, hwfp⟩ := hwf
        rw [WFPairs_iff] at hwfp
        simp only [noneFree, hpf, Bool.false_or] at hnf
        rw [noneFreePairs_iff] at hnf
        simp only [flatten, hpf, Bool.false_eq_true, if_false, hs, if_true] at hfl
        have hih : ∀ w ∈ (sortPairs xs).map Prod.snd, WF p w = true → noneFree p w = true →
            ∀ fl2, flatten p w = .ok fl2 → ∀ l2 i2, i2 + fl2.length ≤ l2.length →
              (l2.drop i2).take fl2.length = fl2 →
              packHelper p l2 w i2 = .ok (i2 + fl2.length, deepSort p w) := by
          intro w hw
          obtain ⟨kv, hkv, rfl⟩ := List.mem_map.mp hw
          exact ih kv (mem_sortPairs.mp hkv)
        have hwfc : ∀ w ∈ (sortPairs xs).map Prod.snd, WF p w = true := by
          intro w hw
          obtain ⟨kv, hkv, rfl⟩ := List.mem_map.mp hw
          exact hwfp kv (mem_sortPairs.mp hkv)
        have hnfc : ∀ w ∈ (sortPairs xs).map Prod.snd, noneFree p w = true := by
          intro w hw
          obtain ⟨kv, hkv, rfl⟩ := List.mem_map.mp hw
          exact hnf kv (mem_sortPairs.mp hkv)
        have hls := packExactList p _ hih hwfc hnfc fl hfl l i hlen hread
        have hzip := zip_fst_map_snd (deepSort p) (sortPairs xs)
        simp only [deepSort, hpf, Bool.false_eq_true, if_false, deepSort_dict_keys]
        simp [packHelper, hpf, hs, hls, shallow_structure_like]
        simp only [← List.map_map]
        exact hzip

end Nifty

namespace Nifty

theorem flattenList_deepSort_of (p : Val → Bool) (cs : List Val)
    (ih : ∀ c ∈ cs, flatten p (deepSort p c) = flatten p c) :
    flattenList p (cs.map (deepSort p)) = flattenList p cs := by
  induction cs with
  | nil => simp
  | cons c cs ihc =>
      simp only [List.map_cons, flattenList]
      rw [ih c (by simp), ihc (fun w hw => ih w (by simp [hw]))]

theorem flatten_deepSort (p : Val → Bool) (hst : deepSortStable p) :
    ∀ v, flatten p (deepSort p v) = flatten p v := by
  intro v
  induction v using Val.my_ind with
  | hnone => simp [deepSort]
  | hint n => simp [deepSort]
  | hstr s => simp [deepSort]
  | hobj o => simp [deepSort]
  | hlist xs ih =>
      by_cases hp : p (.list xs) = true
      · simp [deepSort, hp]
      · have hpf : p (.list xs) = false := by simpa using hp
        have hps : p (.list (deepSortList p xs)) = false := by
          have h := hst (.list xs)
          simpa [deepSort, hpf] using h
        simp only [deepSort, hpf, Bool.false_eq_true, if_false]
        simp only [flatten, hps, hpf, Bool.false_eq_true, if_false]
        rw [deepSortList_map]
        exact flattenList_deepSort_of p xs ih
  | htuple xs ih =>
      by_cases hp : p (.tuple xs) = true
      · simp [deepSort, hp]
      · have hpf : p (.tuple xs) = false := by simpa using hp
        have hps : p (.tuple (deepSortList p xs)) = false := by
          have h := hst (.tuple xs)
          simpa [deepSort, hpf] using h
        simp only [deepSort, hpf, Bool.false_eq_true, if_false]
        simp only [flatten, hps, hpf, Bool.false_eq_true, if_false]
        rw [deepSortList_map]
        exact flattenList_deepSort_of p xs ih
  | hset xs ih =>
      by_cases hp : p (.set xs) = true
      · simp [deepSort, hp]
      · have hpf : p (.set xs) = false := by simpa using hp
        have hps : p (.set (deepSortList p xs)) = false := by
          have h := hst (.set xs)
          simpa [deepSort, hpf] using h
        simp only [deepSort, hpf, Bool.false_eq_true, if_false]
        simp only [flatten, hps, hpf, Bool.false_eq_true, if_false]
        rw [deepSortList_map]
        exact flattenList_deepSort_of p xs ih
  | hnt n f xs ih =>
      by_cases hp : p (.ntuple n f xs) = true
      · simp [deepSort, hp]
      · have hpf : p (.ntuple n f xs) = false := by simpa using hp
        have hps : p (.ntuple n f (deepSortList p xs)) = false := by
          have h := hst (.ntuple n f xs)
          simpa [deepSort, hpf] using h
        simp only [deepSort, hpf, Bool.false_eq_true, if_false]
        simp only [flatten, hps, hpf, Bool.false_eq_true, if_false]
        rw [deepSortList_map]
        exact flattenList_deepSort_of p xs ih
  | hat n f xs ih =>
      by_cases hp : p (.attrs n f xs) = true
      · simp [deepSort, hp]
      · have hpf : p (.attrs n f xs) = false := by simpa using hp
        have hps : p (.attrs n f (deepSortList p xs)) = false := by
          have h := hst (.attrs n f xs)
          simpa [deepSort, hpf] using h
        simp only [deepSort, hpf, Bool.false_eq_true, if_false]
        simp only [flatten, hps, hpf, Bool.false_eq_true, if_false]
        rw [deepSortList_map]
        exact flattenList_deepSort_of p xs ih
  | hdict xs ih =>
      by_cases hp : p (.dict xs) = true
      · simp [deepSort, hp]
      · have hpf : p (.dict xs) = false := by simpa using hp
        have hps : p (.dict (sortPairs (deepSortPairs p xs))) = false := by
          have h := hst (.dict xs)
          simpa [deepSort, hpf] using h
        simp only [deepSort, hpf, Bool.false_eq_true, if_false]
        simp only [flatten, hps, hpf, Bool.false_eq_true, if_false]
        have hkeys : (sortPairs (deepSortPairs p xs)).map Prod.fst = (sortPairs xs).map Prod.fst := by
          rw [deepSort_dict_keys]
          simp [List.map_map, Function.comp]
        have hsk : sortableKeys ((sortPairs xs).map Prod.fst) = sortableKeys (xs.map Prod.fst) :=
          sortableKeys_perm (List.Perm.map Prod.fst (sortPairs_perm xs))
        rw [hkeys, hsk]
        by_cases hsort : sortableKeys (xs.map Prod.fst) = true
        · simp only [hsort, if_true]
          rw [sortPairs_idem, deepSort_dict_keys]
          have hm : ((sortPairs xs).map fun kv => (kv.1, deepSort p kv.2)).map Prod.snd
              = ((sortPairs xs).map Prod.snd).map (deepSort p) := by
            simp [List.map_map, Function.comp]
          rw [hm]
          exact flattenList_deepSort_of p _ (fun c hc => by
            obtain ⟨kv, hkv, rfl⟩ := List.mem_map.mp hc
            exact ih kv (mem_sortPairs.mp hkv))
        · simp [hsort]

end Nifty

namespace Nifty

theorem assertList_deepSort (p : Val → Bool) (xs : List Val)
    (ih : ∀ v ∈ xs, assert_same_structure p v (deepSort p v) = .ok ()) :
    assertList p xs (xs.map (deepSort p)) = .ok () := by
  induction xs with
  | nil => simp [assertList]
  | cons v vs ihc =>
      simp only [List.map_cons, assertList]
      rw [ih v (by simp)]
      simpa using ihc (fun w hw => ih w (by simp [hw]))

theorem assertPairs_deepSort (p : Val → Bool) (xs : List (Key × Val))
    (ih : ∀ kv ∈ xs, assert_same_structure p kv.2 (deepSort p kv.2) = .ok ()) :
    assertPairs p xs (xs.map (fun kv => (kv.1, deepSort p kv.2))) = .ok () := by
  induction xs with
  | nil => simp [assertPairs]
  | cons kv kvs ihc =>
      cases kv with
      | mk k v =>
          simp only [List.map_cons, assertPairs]
          rw [ih (k, v) (by simp)]
          simpa using ihc (fun w hw => ih w (by simp [hw]))

theorem assert_deepSort (p : Val → Bool) (hst : deepSortStable p) :
    ∀ v, WF p v = true → noneFree p v = true →
      assert_same_structure p v (deepSort p v) = .ok () := by
  intro v
  induction v using Val.my_ind with
  | hnone => intro _ hnf; exact absurd rfl (noneFree_ne_none hnf)
  | hint n =>
      intro hwf _
      have hp : p (.int n) = true := by simpa [WF] using hwf
      rw [deepSort_atomic p _ hp]
      simp [assert_same_structure, hp]
  | hstr s =>
      intro hwf _
      have hp : p (.str s) = true := by simpa [WF] using hwf
      rw [deepSort_atomic p _ hp]
      simp [assert_same_structure, hp]
  | hobj o =>
      intro hwf _
      have hp : p (.obj o) = true := by simpa [WF] using hwf
      rw [deepSort_atomic p _ hp]
      simp [assert_same_structure, hp]
  | hlist xs ih =>
      intro hwf hnf
      by_cases hp : p (.list xs) = true
      · rw [deepSort_atomic p _ hp]; simp [assert_same_structure, hp]
      · have hpf : p (.list xs) = false := by simpa using hp
        have hps : p (.list (xs.map (deepSort p))) = false := by
          have h := hst (.list xs)
          simpa [deepSort, hpf, deepSortList_map] using h
        simp only [WF, hpf, Bool.false_or] at hwf
        rw [WFList_iff] at hwf
        simp only [noneFree, hpf, Bool.false_or] at hnf
        rw [noneFreeList_iff] at hnf
        have hfin := assertList_deepSort p xs (fun v hv => ih v hv (hwf v hv) (hnf v hv))
        simp only [deepSort, hpf, Bool.false_eq_true, if_false, deepSortList_map]
        simpa [assert_same_structure, hps, hpf, typeTag] using hfin
  | htuple xs ih =>
      intro hwf hnf
      by_cases hp : p (.tuple xs) = true
      · rw [deepSort_atomic p _ hp]; simp [assert_same_structure, hp]
      · have hpf : p (.tuple xs) = false := by simpa using hp
        have hps : p (.tuple (xs.map (deepSort p))) = false := by
          have h := hst (.tuple xs)
          simpa [deepSort, hpf, deepSortList_map] using h
        simp only [WF, hpf, Bool.false_or] at hwf
        rw [WFList_iff] at hwf
        simp only [noneFree, hpf, Bool.false_or] at hnf
        rw [noneFreeList_iff] at hnf
        have hfin := assertList_deepSort p xs (fun v hv => ih v hv (hwf v hv) (hnf v hv))
        simp only [deepSort, hpf, Bool.false_eq_true, if_false, deepSortList_map]
        simpa [assert_same_structure, hps, hpf, typeTag] using hfin
  | hset xs ih =>
      intro hwf hnf
      by_cases hp : p (.set xs) = true
      · rw [deepSort_atomic p _ hp]; simp [assert_same_structure, hp]
      · have hpf : p (.set xs) = false := by simpa using hp
        have hps : p (.set (xs.map (deepSort p))) = false := by
          have h := hst (.set xs)
          simpa [deepSort, hpf, deepSortList_map] using h
        simp only [WF, hpf, Bool.false_or, Bool.and_eq_true] at hwf
        obtain ⟨⟨hh, hnd⟩, hwfl⟩ := hwf
        rw [WFList_iff] at hwfl
        simp only [noneFree, hpf, Bool.false_or] at hnf
        rw [noneFreeList_iff] at hnf
        have hfin := assertList_deepSort p xs (fun v hv => ih v hv (hwfl v hv) (hnf v hv))
        simp only [deepSort, hpf, Bool.false_eq_true, if_false, deepSortList_map]
        simpa [assert_same_structure, hps, hpf, typeTag] using hfin
  | hnt n f xs ih =>
      intro hwf hnf
      by_cases hp : p (.ntuple n f xs) = true
      · rw [deepSort_atomic p _ hp]; simp [assert_same_structure, hp]
      · have hpf : p (.ntuple n f xs) = false := by simpa using hp
        have hps : p (.ntuple n f (xs.map (deepSort p))) = false := by
          have h := hst (.ntuple n f xs)
          simpa [deepSort, hpf, deepSortList_map] using h
        simp only [WF, hpf, Bool.false_or, Bool.and_eq_true] at hwf
        obtain ⟨hfx, hwfl⟩ := hwf
        rw [WFList_iff] at hwfl
        simp only [noneFree, hpf, Bool.false_or] at hnf
        rw [noneFreeList_iff] at hnf
        have hfin := assertList_deepSort p xs (fun v hv => ih v hv (hwfl v hv) (hnf v hv))
        simp only [deepSort, hpf, Bool.false_eq_true, if_false, deepSortList_map]
        simpa [assert_same_structure, hps, hpf, typeTag] using hfin
  | hat n f xs ih =>
      intro hwf hnf
      by_cases hp : p (.attrs n f xs) = true
      · rw [deepSort_atomic p _ hp]; simp [assert_same_structure, hp]
      · have hpf : p (.attrs n f xs) = false := by simpa using hp
        have hps : p (.attrs n f (xs.map (deepSort p))) = false := by
          have h := hst (.attrs n f xs)
          simpa [deepSort, hpf, deepSortList_map] using h
        simp only [WF, hpf, Bool.false_or, Bool.and_eq_true] at hwf
        obtain ⟨hfx, hwfl⟩ := hwf
        rw [WFList_iff] at hwfl
        simp only [noneFree, hpf, Bool.false_or] at hnf
        rw [noneFreeList_iff] at hnf
        have hfin := assertList_deepSort p xs (fun v hv => ih v hv (hwfl v hv) (hnf v hv))
        simp only [deepSort, hpf, Bool.false_eq_true, if_false, deepSortList_map]
        simpa [assert_same_structure, hps, hpf, typeTag] using hfin
  | hdict xs ih =>
      intro hwf hnf
      by_cases hp : p (.dict xs) = true
      · rw [deepSort_atomic p _ hp]; simp [assert_same_structure, hp]
      · have hpf : p (.dict xs) = false := by simpa using hp
        have hps : p (.dict ((sortPairs xs).map (fun kv => (kv.1, deepSort p kv.2)))) = false := by
          have h := hst (.dict xs)
          simpa [deepSort, hpf, deepSort_dict_keys] using h
        simp only [WF, hpf, Bool.false_or, Bool.and_eq_true] at hwf
        obtain ⟨⟨hs, hnd⟩, hwfp⟩ := hwf
        rw [WFPairs_iff] at hwfp
        simp only [noneFree, hpf, Bool.false_or] at hnf
        rw [noneFreePairs_iff] at hnf
        have hsm : sortPairs ((sortPairs xs).map (fun kv => (kv.1, deepSort p kv.2)))
            = (sortPairs xs).map (fun kv => (kv.1, deepSort p kv.2)) := by
          rw [← deepSort_dict_keys, sortPairs_idem, deepSort_dict_keys]
        have hsk2 : sortableKeys ((sortPairs xs).map Prod.fst) = true := by
          rw [sortableKeys_perm (List.Perm.map Prod.fst (sortPairs_perm xs))]
          exact hs
        have hlen2 : xs.length = ((sortPairs xs).map (fun kv => (kv.1, deepSort p kv.2))).length := by
          simp [length_sortPairs]
        have hfin := assertPairs_deepSort p (sortPairs xs) (fun kv hkv =>
          have hm := mem_sortPairs.mp hkv
          ih kv hm (hwfp kv hm) (hnf kv hm))
        have hsk3 : sortableKeys (List.map (Prod.fst ∘ fun kv => (kv.1, deepSort p kv.2))
            (sortPairs xs)) = true := by
          have he : List.map (Prod.fst ∘ fun kv => (kv.1, deepSort p kv.2)) (sortPairs xs)
              = (sortPairs xs).map Prod.fst := by
            simp [Function.comp]
          rw [he]; exact hsk2
        simp only [deepSort, hpf, Bool.false_eq_true, if_false, deepSort_dict_keys]
        simpa [assert_same_structure, hps, hpf, typeTag, hs, hsm, hsk2, hsk3, ← hlen2,
          List.map_map, Function.comp] using hfin

end Nifty

namespace Nifty

theorem pack_of_ne_none (s : Val) (hs : s ≠ .none) (l : List Val) (p : Val → Bool) :
    pack_list_into s l p = (do
      let r ← packHelper p l s 0
      pure r.2) := by
  cases s <;> (first | exact absurd rfl hs | rfl)

/-- C1 (amended): on a traversal-well-formed structure with no `None` at a
traversed position and a predicate stable under dict re-sorting, the round
trip holds: `flatten` succeeds, packing its result back reproduces the
structure up to re-sorting of mapping entries (`deepSort`), the rebuilt
structure flattens to the same flat list (so every leaf is unchanged), and
`assert_same_structure` accepts the pair.  The claim's parenthetical about
`None` at child positions is refuted separately. -/
theorem C1_round_trip (p : Val → Bool) (s : Val) (hst : deepSortStable p)
    (hwf : WF p s = true) (hnf : noneFree p s = true) :
    ∃ fl, flatten p s = .ok fl ∧
      pack_list_into s fl p = .ok (deepSort p s) ∧
      flatten p (deepSort p s) = .ok fl ∧
      assert_same_structure p s (deepSort p s) = .ok () := by
  obtain ⟨fl, hfl⟩ := flatten_total p s hwf
  refine ⟨fl, hfl, ?_, ?_, ?_⟩
  · rw [pack_of_ne_none s (noneFree_ne_none hnf) fl p]
    have hpe := packExact p s hwf hnf fl hfl fl 0 (by simp) (by simp)
    rw [hpe]
    simp
  · rw [flatten_deepSort p hst s, hfl]
  · exact assert_deepSort p hst s hwf hnf

/-- C1 (counterexample to the parenthetical): with the default predicate,
`flatten` skips a `None` child (the `None` check precedes the atomicity
check), but `pack_list_into`'s helper checks atomicity first, so the atomic
`None` child consumes a flat element; packing the flat list of a structure
containing `None` therefore underflows and raises `IndexError` instead of
reproducing the structure. -/
theorem C1_counterexample :
    flatten is_scalar (.list [Val.none]) = .ok [] ∧
    pack_list_into (.list [Val.none]) [] is_scalar = .error .indexError := by
  constructor
  · simp [flatten, flattenList, is_scalar]
  · simp [pack_list_into, packHelper, packList, is_scalar]

/-- Witness for C1: the amended round trip at a concrete input. -/
theorem C1_round_trip_witness :
    ∃ fl, flatten is_scalar (.list [.int 1]) = .ok fl ∧
      pack_list_into (.list [.int 1]) fl is_scalar
        = .ok (deepSort is_scalar (.list [.int 1])) ∧
      flatten is_scalar (deepSort is_scalar (.list [.int 1])) = .ok fl ∧
      assert_same_structure is_scalar (.list [.int 1])
        (deepSort is_scalar (.list [.int 1])) = .ok () :=
  C1_round_trip is_scalar (.list [.int 1])
    (fun v => is_scalar_typeTag (typeTag_deepSort is_scalar v))
    (by simp [WF, WFList, is_scalar])
    (by simp [noneFree, noneFreeList, is_scalar])

end Nifty

namespace Nifty

theorem pairsSorted_of_map_fst {α β : Type} :
    ∀ (l1 : List (Key × α)) (l2 : List (Key × β)),
      l1.map Prod.fst = l2.map Prod.fst → pairsSorted l1 → pairsSorted l2 := by
  intro l1
  induction l1 with
  | nil =>
      intro l2 h _
      cases l2 with
      | nil => simp [pairsSorted]
      | cons a l => simp at h
  | cons x t ih =>
      intro l2 h hp
      cases l2 with
      | nil => simp at h
      | cons a m =>
          simp only [List.map_cons, List.cons.injEq] at h
          obtain ⟨h1, h2⟩ := h
          cases t with
          | nil =>
              cases m with
              | nil => simp [pairsSorted]
              | cons b m2 => simp at h2
          | cons y t2 =>
              cases m with
              | nil => simp at h2
              | cons b m2 =>
                  obtain ⟨hle, hrest⟩ := hp
                  have hb : y.1 = b.1 := by
                    simp only [List.map_cons, List.cons.injEq] at h2
                    exact h2.1
                  exact ⟨by rw [← h1, ← hb]; exact hle, ih (b :: m2) h2 hrest⟩

theorem flattenList_mapList (f : Val → Val) (p : Val → Bool) (xs : List Val)
    (ih : ∀ v ∈ xs, ∃ fl m, flatten p v = .ok fl ∧ map f p v = .ok m ∧
      flatten p m = .ok (fl.map f)) :
    ∃ FL MS, flattenList p xs = .ok FL ∧ mapList f p xs = .ok MS ∧
      flattenList p MS = .ok (FL.map f) ∧ MS.length = xs.length := by
  induction xs with
  | nil =>
      exact ⟨[], [], by simp [flattenList], by simp [mapList], by simp [flattenList], rfl⟩
  | cons v vs ihc =>
      obtain ⟨fl, m, hfl, hm, hfm⟩ := ih v (by simp)
      obtain ⟨FL, MS, hFL, hMS, hFM, hlen⟩ := ihc (fun w hw => ih w (by simp [hw]))
      refine ⟨fl ++ FL, m :: MS, ?_, ?_, ?_, by simp [hlen]⟩
      · simp [flattenList, hfl, hFL]
      · simp [mapList, hm, hMS]
      · simp [flattenList, hfm, hFM]

theorem map_flatten_atomic (f : Val → Val) (p : Val → Bool)
    (v : Val) (hv : v ≠ Val.none) (hp : p v = true)
    (hpf : p (f v) = true) (hfnv : f v ≠ Val.none) :
    ∃ fl m, flatten p v = .ok fl ∧ map f p v = .ok m ∧
      flatten p m = .ok (fl.map f) := by
  refine ⟨[v], f v, flatten_atomic p v hv hp, ?_, ?_⟩
  · cases v <;> (first | exact absurd rfl hv | simp [map, hp])
  · simpa using flatten_atomic p (f v) hfnv hpf

end Nifty

namespace Nifty

/-- C4 (amended): if the predicate depends only on the runtime type, atomic
images under `f` stay atomic and are never `None`, and the structure is
traversal-well-formed with every set-shaped substructure atomic, then
`flatten(map(f, s, p), p)` is exactly `f` mapped over `flatten(s, p)`.  The
claim's inclusion of traversed (non-atomic) sets is refuted separately:
rebuilding a set deduplicates the mapped children. -/
theorem C4_map_flatten (f : Val → Val) (p : Val → Bool) (htd : typeDetermined p)
    (hf : ∀ v, p v = true → p (f v) = true)
    (hfn : ∀ v, p v = true → f v ≠ Val.none) :
    ∀ s, WF p s = true → setFree p s = true →
      ∃ fl m, flatten p s = .ok fl ∧ map f p s = .ok m ∧
        flatten p m = .ok (fl.map f) := by
  intro s
  induction s using Val.my_ind with
  | hnone =>
      intro _ _
      exact ⟨[], .none, by simp [flatten], by simp [map], by simp [flatten]⟩
  | hint n =>
      intro hwf _
      have hp : p (.int n) = true := by simpa [WF] using hwf
      exact map_flatten_atomic f p _ (by simp) hp (hf _ hp) (hfn _ hp)
  | hstr s =>
      intro hwf _
      have hp : p (.str s) = true := by simpa [WF] using hwf
      exact map_flatten_atomic f p _ (by simp) hp (hf _ hp) (hfn _ hp)
  | hobj o =>
      intro hwf _
      have hp : p (.obj o) = true := by simpa [WF] using hwf
      exact map_flatten_atomic f p _ (by simp) hp (hf _ hp) (hfn _ hp)
  | hset xs ih =>
      intro hwf hsf
      have hp : p (.set xs) = true := by simpa [setFree] using hsf
      exact map_flatten_atomic f p _ (by simp) hp (hf _ hp) (hfn _ hp)
  | hlist xs ih =>
      intro hwf hsf
      by_cases hp : p (.list xs) = true
      · exact map_flatten_atomic f p _ (by simp) hp (hf _ hp) (hfn _ hp)
      · have hpf : p (.list xs) = false := by simpa using hp
        simp only [WF, hpf, Bool.false_or] at hwf
        rw [WFList_iff] at hwf
        simp only [setFree, hpf, Bool.false_or] at hsf
        rw [setFreeList_iff] at hsf
        obtain ⟨FL, MS, hFL, hMS, hFM, hlen⟩ := flattenList_mapList f p xs
          (fun v hv => ih v hv (hwf v hv) (hsf v hv))
        have hpm : p (.list MS) = false := by
          rw [htd (.list MS) (.list xs) (by simp [typeTag])]; exact hpf
        refine ⟨FL, .list MS, ?_, ?_, ?_⟩
        · simp [flatten, hpf, hFL]
        · simp [map, hpf, hMS, shallow_structure_like]
        · simp [flatten, hpm, hFM]
  | htuple xs ih =>
      intro hwf hsf
      by_cases hp : p (.tuple xs) = true
      · exact map_flatten_atomic f p _ (by simp) hp (hf _ hp) (hfn _ hp)
      · have hpf : p (.tuple xs) = false := by simpa using hp
        simp only [WF, hpf, Bool.false_or] at hwf
        rw [WFList_iff] at hwf
        simp only [setFree, hpf, Bool.false_or] at hsf
        rw [setFreeList_iff] at hsf
        obtain ⟨FL, MS, hFL, hMS, hFM, hlen⟩ := flattenList_mapList f p xs
          (fun v hv => ih v hv (hwf v hv) (hsf v hv))
        have hpm : p (.tuple MS) = false := by
          rw [htd (.tuple MS) (.tuple xs) (by simp [typeTag])]; exact hpf
        refine ⟨FL, .tuple MS, ?_, ?_, ?_⟩
        · simp [flatten, hpf, hFL]
        · simp [map, hpf, hMS, shallow_structure_like]
        · simp [flatten, hpm, hFM]
  | hnt n fs xs ih =>
      intro hwf hsf
      by_cases hp : p (.ntuple n fs xs) = true
      · exact map_flatten_atomic f p _ (by simp) hp (hf _ hp) (hfn _ hp)
      · have hpf : p (.ntuple n fs xs) = false := by simpa using hp
        simp only [WF, hpf, Bool.false_or, Bool.and_eq_true, decide_eq_true_eq] at hwf
        obtain ⟨hfx, hwfl⟩ := hwf
        rw [WFList_iff] at hwfl
        simp only [setFree, hpf, Bool.false_or] at hsf
        rw [setFreeList_iff] at hsf
        obtain ⟨FL, MS, hFL, hMS, hFM, hlen⟩ := flattenList_mapList f p xs
          (fun v hv => ih v hv (hwfl v hv) (hsf v hv))
        have hpm : p (.ntuple n fs MS) = false := by
          rw [htd (.ntuple n fs MS) (.ntuple n fs xs) (by simp [typeTag])]; exact hpf
        have hlf : MS.length = fs.length := by omega
        refine ⟨FL, .ntuple n fs MS, ?_, ?_, ?_⟩
        · simp [flatten, hpf, hFL]
        · simp [map, hpf, hMS, shallow_structure_like, hlf]
        · simp [flatten, hpm, hFM]
  | hat n fs xs ih =>
      intro hwf hsf
      by_cases hp : p (.attrs n fs xs) = true
      · exact map_flatten_atomic f p _ (by simp) hp (hf _ hp) (hfn _ hp)
      · have hpf : p (.attrs n fs xs) = false := by simpa using hp
        simp only [WF, hpf, Bool.false_or, Bool.and_eq_true, decide_eq_true_eq] at hwf
        obtain ⟨hfx, hwfl⟩ := hwf
        rw [WFList_iff] at hwfl
        simp only [setFree, hpf, Bool.false_or] at hsf
        rw [setFreeList_iff] at hsf
        obtain ⟨FL, MS, hFL, hMS, hFM, hlen⟩ := flattenList_mapList f p xs
          (fun v hv => ih v hv (hwfl v hv) (hsf v hv))
        have hpm : p (.attrs n fs MS) = false := by
          rw [htd (.attrs n fs MS) (.attrs n fs xs) (by simp [typeTag])]; exact hpf
        have hlf : MS.length = fs.length := by omega
        refine ⟨FL, .attrs n fs MS, ?_, ?_, ?_⟩
        · simp [flatten, hpf, hFL]
        · simp [map, hpf, hMS, shallow_structure_like, hlf]
        · simp [flatten, hpm, hFM]
  | hdict xs ih =>
      intro hwf hsf
      by_cases hp : p (.dict xs) = true
      · exact map_flatten_atomic f p _ (by simp) hp (hf _ hp) (hfn _ hp)
      · have hpf : p (.dict xs) = false := by simpa using hp
        simp only [WF, hpf, Bool.false_or, Bool.and_eq_true] at hwf
        obtain ⟨⟨hs, hnd⟩, hwfp⟩ := hwf
        rw [WFPairs_iff] at hwfp
        simp only [setFree, hpf, Bool.false_or] at hsf
        rw [setFreePairs_iff] at hsf
        obtain ⟨FL, MS, hFL, hMS, hFM, hlen⟩ := flattenList_mapList f p
          ((sortPairs xs).map Prod.snd)
          (fun w hw => by
            obtain ⟨kv, hkv, rfl⟩ := List.mem_map.mp hw
            have hm := mem_sortPairs.mp hkv
            exact ih kv hm (hwfp kv hm) (hsf kv hm))
        have hKlen : ((sortPairs xs).map Prod.fst).length ≤ MS.length := by
          simp only [List.length_map] at hlen ⊢
          simp [hlen]
        have hzf : ((((sortPairs xs).map Prod.fst).zip MS).map Prod.fst)
            = (sortPairs xs).map Prod.fst :=
          List.map_fst_zip _ _ hKlen
        have hMlen : MS.length ≤ ((sortPairs xs).map Prod.fst).length := by
          simp only [List.length_map] at hlen ⊢
          simp [hlen]
        have hzs : ((((sortPairs xs).map Prod.fst).zip MS).map Prod.snd) = MS :=
          List.map_snd_zip _ _ hMlen
        have hpm : p (.dict (((sortPairs xs).map Prod.fst).zip MS)) = false := by
          rw [htd _ (.dict xs) (by simp [typeTag])]; exact hpf
        have hskz : sortableKeys (((((sortPairs xs).map Prod.fst).zip MS)).map Prod.fst) = true := by
          rw [hzf, sortableKeys_perm (List.Perm.map Prod.fst (sortPairs_perm xs))]
          exact hs
        have hsorted : pairsSorted (((sortPairs xs).map Prod.fst).zip MS) :=
          pairsSorted_of_map_fst (sortPairs xs) _ hzf.symm (sortPairs_sorted xs)
        have hsp : sortPairs (((sortPairs xs).map Prod.fst).zip MS)
            = ((sortPairs xs).map Prod.fst).zip MS := sortPairs_of_sorted _ hsorted
        refine ⟨FL, .dict (((sortPairs xs).map Prod.fst).zip MS), ?_, ?_, ?_⟩
        · simp [flatten, hpf, hs, hFL]
        · simp [map, hpf, hs, hMS, shallow_structure_like]
        · simp [flatten, hpm, hskz, hsp, hzs, hFM]

end Nifty

namespace Nifty

/-- C4 (counterexample for traversed sets): mapping the constant function
`0` over the non-atomic set `{1, 2}` rebuilds the set through `set(...)`,
which deduplicates: the result `{0}` flattens to `[0]`, while `f` mapped
over `flatten({1, 2}) = [1, 2]` is `[0, 0]`. -/
theorem C4_counterexample :
    map (fun _ => Val.int 0) is_scalar (.set [.int 1, .int 2]) = .ok (.set [.int 0]) ∧
    flatten is_scalar (.set [.int 0]) = .ok [.int 0] ∧
    flatten is_scalar (.set [.int 1, .int 2]) = .ok [.int 1, .int 2] ∧
    [Val.int 1, Val.int 2].map (fun _ => Val.int 0) ≠ [Val.int 0] := by
  refine ⟨?_, ?_, ?_, by simp⟩
  · simp +decide [map, mapList, shallow_structure_like, mkSet, is_scalar]
  · simp [flatten, flattenList, is_scalar]
  · simp [flatten, flattenList, is_scalar]

/-- Witness for C4: the amended map/flatten consistency at a concrete
input. -/
theorem C4_map_flatten_witness :
    ∃ fl m, flatten is_scalar (.list [.int 1]) = .ok fl ∧
      map (fun _ => Val.int 7) is_scalar (.list [.int 1]) = .ok m ∧
      flatten is_scalar m = .ok (fl.map (fun _ => Val.int 7)) :=
  C4_map_flatten (fun _ => Val.int 7) is_scalar
    (fun a b h => is_scalar_typeTag h)
    (fun v hv => by simp [is_scalar])
    (fun v hv => by simp)
    (.list [.int 1])
    (by simp [WF, WFList, is_scalar])
    (by simp [setFree, setFreeList, is_scalar])

end Nifty

namespace Nifty

theorem specSame_of_p_ne (p : Val → Bool) (a b : Val) (h : ¬ (p a = p b)) :
    specSame p a b = false := by
  cases hpa : p a <;> cases hpb : p b <;> rw [hpa, hpb] at h <;>
    (try exact absurd rfl h) <;>
    cases a <;> cases b <;> (try simp [specSame, hpa, hpb]) <;> simp_all

theorem specSame_atomic (p : Val → Bool) (a b : Val)
    (hpa : p a = true) (hpb : p b = true) : specSame p a b = true := by
  cases a <;> cases b <;> simp [specSame, hpa, hpb]

theorem specSame_of_tag_ne (p : Val → Bool) (a b : Val)
    (hpa : p a = false) (hpb : p b = false) (h : typeTag a ≠ typeTag b) :
    specSame p a b = false := by
  cases a <;> cases b <;>
    (first
      | exact absurd rfl h
      | (simp [specSame, hpa, hpb]; done)
      | (rename_i n1 f1 xs1 n2 f2 xs2
         by_cases hn : n1 = n2
         · by_cases hfe : f1 = f2
           · exact absurd (by simp [typeTag, hn, hfe]) h
           · simp [specSame, hpa, hpb, hfe]
         · simp [specSame, hpa, hpb, hn]))

theorem assert_of_p_ne (p : Val → Bool) (a b : Val) (h : ¬ (p a = p b)) :
    assert_same_structure p a b = .error .assertionError := by
  rw [assert_same_structure.eq_def]
  simp [h]

theorem assert_atomic (p : Val → Bool) (a b : Val)
    (hpa : p a = true) (hpb : p b = true) :
    assert_same_structure p a b = .ok () := by
  rw [assert_same_structure.eq_def]
  simp [hpa, hpb]

theorem assert_of_tag_ne (p : Val → Bool) (a b : Val)
    (hpa : p a = false) (hpb : p b = false) (h : typeTag a ≠ typeTag b) :
    assert_same_structure p a b = .error .assertionError := by
  rw [assert_same_structure.eq_def]
  simp [hpa, hpb, h]

end Nifty

namespace Nifty

theorem assertList_specSameList (p : Val → Bool) :
    ∀ (xs ys : List Val), xs.length = ys.length →
      (∀ a ∈ xs, ∀ b ∈ ys,
        (assert_same_structure p a b = .ok () ↔ specSame p a b = true)) →
      (assertList p xs ys = .ok () ↔ specSameList p xs ys = true) := by
  intro xs
  induction xs with
  | nil =>
      intro ys hlen _
      cases ys with
      | nil => simp [assertList, specSameList]
      | cons b bs => simp at hlen
  | cons a as ih =>
      intro ys hlen hiff
      cases ys with
      | nil => simp at hlen
      | cons b bs =>
          have hab := hiff a (by simp) b (by simp)
          have htail := ih bs (by simpa using hlen)
            (fun x hx y hy => hiff x (by simp [hx]) y (by simp [hy]))
          cases hassert : assert_same_structure p a b with
          | ok u =>
              cases u
              have hsp : specSame p a b = true := hab.mp hassert
              simp [assertList, specSameList, hassert, hsp, htail]
          | error e =>
              have hspb : specSame p a b = false := by
                cases hq : specSame p a b
                · rfl
                · exact absurd (hab.mpr hq) (by simp [hassert])
              simp [assertList, specSameList, hassert, hspb]

theorem assertPairs_specSamePairs (p : Val → Bool) :
    ∀ (xs ys : List (Key × Val)), xs.length = ys.length →
      (∀ kv ∈ xs, ∀ kw ∈ ys,
        (assert_same_structure p kv.2 kw.2 = .ok () ↔ specSame p kv.2 kw.2 = true)) →
      (assertPairs p xs ys = .ok () ↔ specSamePairs p xs ys = true) := by
  intro xs
  induction xs with
  | nil =>
      intro ys hlen _
      cases ys with
      | nil => simp [assertPairs, specSamePairs]
      | cons b bs => simp at hlen
  | cons kv kvs ih =>
      intro ys hlen hiff
      cases ys with
      | nil => simp at hlen
      | cons kw kws =>
          cases kv with
          | mk k a =>
              cases kw with
              | mk j b =>
                  have hab := hiff (k, a) (by simp) (j, b) (by simp)
                  have htail := ih kws (by simpa using hlen)
                    (fun x hx y hy => hiff x (by simp [hx]) y (by simp [hy]))
                  cases hassert : assert_same_structure p a b with
                  | ok u =>
                      cases u
                      have hsp : specSame p a b = true := hab.mp hassert
                      simp [assertPairs, specSamePairs, hassert, hsp, htail]
                  | error e =>
                      have hspb : specSame p a b = false := by
                        cases hq : specSame p a b
                        · rfl
                        · exact absurd (hab.mpr hq) (by simp [hassert])
                      simp [assertPairs, specSamePairs, hassert, hspb]

end Nifty

namespace Nifty

/-- C5 (amended): on traversal-well-formed values, `assert_same_structure`
succeeds exactly when the two values have the same recursive classification
(`specSame`): equal atomicity at every position with no value comparison at
atomic pairs, equal runtime types, identical sorted key lists for mappings,
equal child counts, and children matching pairwise in enumerator order.  The
claim's final clause is refuted separately: the null value is atomic under
the default predicate, so a non-null atomic value compared against `None`
succeeds rather than failing. -/
theorem C5_assert_specSame (p : Val → Bool) :
    ∀ a b, WF p a = true → WF p b = true →
      (assert_same_structure p a b = .ok () ↔ specSame p a b = true) := by
  intro a
  induction a using Val.my_ind with
  | hnone =>
      intro b hwfa hwfb
      by_cases hpa : p Val.none = true
      · by_cases hpb : p b = true
        · simp [assert_atomic p _ b hpa hpb, specSame_atomic p _ b hpa hpb]
        · have hpbf : p b = false := by simpa using hpb
          have hne : ¬ (p Val.none = p b) := by simp [hpa, hpbf]
          simp [assert_of_p_ne p _ b hne, specSame_of_p_ne p _ b hne]
      · have hpaf : p Val.none = false := by simpa using hpa
        by_cases hpb : p b = true
        · have hne : ¬ (p Val.none = p b) := by simp [hpaf, hpb]
          simp [assert_of_p_ne p _ b hne, specSame_of_p_ne p _ b hne]
        · have hpbf : p b = false := by simpa using hpb
          by_cases htag : typeTag Val.none = typeTag b
          · cases b <;> (try simp [typeTag] at htag)
            have h1 : assert_same_structure p Val.none Val.none
                = .error .typeError := by
              simp [assert_same_structure, hpaf, typeTag]
            have h2 : specSame p Val.none Val.none = false := by
              simp [specSame, hpaf]
            simp [h1, h2]
          · simp [assert_of_tag_ne p _ b hpaf hpbf htag,
              specSame_of_tag_ne p _ b hpaf hpbf htag]
  | hint n =>
      intro b hwfa hwfb
      have hpa : p (.int n) = true := by simpa [WF] using hwfa
      by_cases hpb : p b = true
      · simp [assert_atomic p _ b hpa hpb, specSame_atomic p _ b hpa hpb]
      · have hpbf : p b = false := by simpa using hpb
        have hne : ¬ (p (Val.int n) = p b) := by simp [hpa, hpbf]
        simp [assert_of_p_ne p _ b hne, specSame_of_p_ne p _ b hne]
  | hstr s =>
      intro b hwfa hwfb
      have hpa : p (.str s) = true := by simpa [WF] using hwfa
      by_cases hpb : p b = true
      · simp [assert_atomic p _ b hpa hpb, specSame_atomic p _ b hpa hpb]
      · have hpbf : p b = false := by simpa using hpb
        have hne : ¬ (p (Val.str s) = p b) := by simp [hpa, hpbf]
        simp [assert_of_p_ne p _ b hne, specSame_of_p_ne p _ b hne]
  | hobj o =>
      intro b hwfa hwfb
      have hpa : p (.obj o) = true := by simpa [WF] using hwfa
      by_cases hpb : p b = true
      · simp [assert_atomic p _ b hpa hpb, specSame_atomic p _ b hpa hpb]
      · have hpbf : p b = false := by simpa using hpb
        have hne : ¬ (p (Val.obj o) = p b) := by simp [hpa, hpbf]
        simp [assert_of_p_ne p _ b hne, specSame_of_p_ne p _ b hne]
  | hlist xs ih =>
      intro b hwfa hwfb
      by_cases hpa : p (.list xs) = true
      · by_cases hpb : p b = true
        · simp [assert_atomic p _ b hpa hpb, specSame_atomic p _ b hpa hpb]
        · have hpbf : p b = false := by simpa using hpb
          have hne : ¬ (p (Val.list xs) = p b) := by simp [hpa, hpbf]
          simp [assert_of_p_ne p _ b hne, specSame_of_p_ne p _ b hne]
      · have hpaf : p (.list xs) = false := by simpa using hpa
        by_cases hpb : p b = true
        · have hne : ¬ (p (Val.list xs) = p b) := by simp [hpaf, hpb]
          simp [assert_of_p_ne p _ b hne, specSame_of_p_ne p _ b hne]
        · have hpbf : p b = false := by simpa using hpb
          by_cases htag : typeTag (Val.list xs) = typeTag b
          · cases b <;> (try simp [typeTag] at htag)
            rename_i ys
            simp only [WF, hpaf, Bool.false_or] at hwfa
            rw [WFList_iff] at hwfa
            simp only [WF, hpbf, Bool.false_or] at hwfb
            rw [WFList_iff] at hwfb
            by_cases hlen : xs.length = ys.length
            · have h1 : assert_same_structure p (.list xs) (.list ys)
                  = assertList p xs ys := by
                simp [assert_same_structure, hpaf, hpbf, typeTag, hlen]
              have h2 : specSame p (.list xs) (.list ys) = specSameList p xs ys := by
                simp [specSame, hpaf, hpbf, hlen]
              rw [h1, h2]
              exact assertList_specSameList p xs ys hlen
                (fun x hx y hy => ih x hx y (hwfa x hx) (hwfb y hy))
            · have h1 : assert_same_structure p (.list xs) (.list ys)
                  = .error .assertionError := by
                simp [assert_same_structure, hpaf, hpbf, typeTag, hlen]
              have h2 : specSame p (.list xs) (.list ys) = false := by
                simp [specSame, hpaf, hpbf, hlen]
              simp [h1, h2]
          · simp [assert_of_tag_ne p _ b hpaf hpbf htag,
              specSame_of_tag_ne p _ b hpaf hpbf htag]
  | htuple xs ih =>
      intro b hwfa hwfb
      by_cases hpa : p (.tuple xs) = true
      · by_cases hpb : p b = true
        · simp [assert_atomic p _ b hpa hpb, specSame_atomic p _ b hpa hpb]
        · have hpbf : p b = false := by simpa using hpb
          have hne : ¬ (p (Val.tuple xs) = p b) := by simp [hpa, hpbf]
          simp [assert_of_p_ne p _ b hne, specSame_of_p_ne p _ b hne]
      · have hpaf : p (.tuple xs) = false := by simpa using hpa
        by_cases hpb : p b = true
        · have hne : ¬ (p (Val.tuple xs) = p b) := by simp [hpaf, hpb]
          simp [assert_of_p_ne p _ b hne, specSame_of_p_ne p _ b hne]
        · have hpbf : p b = false := by simpa using hpb
          by_cases htag : typeTag (Val.tuple xs) = typeTag b
          · cases b <;> (try simp [typeTag] at htag)
            rename_i ys
            simp only [WF, hpaf, Bool.false_or] at hwfa
            rw [WFList_iff] at hwfa
            simp only [WF, hpbf, Bool.false_or] at hwfb
            rw [WFList_iff] at hwfb
            by_cases hlen : xs.length = ys.length
            · have h1 : assert_same_structure p (.tuple xs) (.tuple ys)
                  = assertList p xs ys := by
                simp [assert_same_structure, hpaf, hpbf, typeTag, hlen]
              have h2 : specSame p (.tuple xs) (.tuple ys) = specSameList p xs ys := by
                simp [specSame, hpaf, hpbf, hlen]
              rw [h1, h2]
              exact assertList_specSameList p xs ys hlen
                (fun x hx y hy => ih x hx y (hwfa x hx) (hwfb y hy))
            · have h1 : assert_same_structure p (.tuple xs) (.tuple ys)
                  = .error .assertionError := by
                simp [assert_same_structure, hpaf, hpbf, typeTag, hlen]
              have h2 : specSame p (.tuple xs) (.tuple ys) = false := by
                simp [specSame, hpaf, hpbf, hlen]
              simp [h1, h2]
          · simp [assert_of_tag_ne p _ b hpaf hpbf htag,
              specSame_of_tag_ne p _ b hpaf hpbf htag]
  | hset xs ih =>
      intro b hwfa hwfb
      by_cases hpa : p (.set xs) = true
      · by_cases hpb : p b = true
        · simp [assert_atomic p _ b hpa hpb, specSame_atomic p _ b hpa hpb]
        · have hpbf : p b = false := by simpa using hpb
          have hne : ¬ (p (Val.set xs) = p b) := by simp [hpa, hpbf]
          simp [assert_of_p_ne p _ b hne, specSame_of_p_ne p _ b hne]
      · have hpaf : p (.set xs) = false := by simpa using hpa
        by_cases hpb : p b = true
        · have hne : ¬ (p (Val.set xs) = p b) := by simp [hpaf, hpb]
          simp [assert_of_p_ne p _ b hne, specSame_of_p_ne p _ b hne]
        · have hpbf : p b = false := by simpa using hpb
          by_cases htag : typeTag (Val.set xs) = typeTag b
          · cases b <;> (try simp [typeTag] at htag)
            rename_i ys
            simp only [WF, hpaf, Bool.false_or, Bool.and_eq_true] at hwfa
            obtain ⟨_, hwfa⟩ := hwfa
            rw [WFList_iff] at hwfa
            simp only [WF, hpbf, Bool.false_or, Bool.and_eq_true] at hwfb
            obtain ⟨_, hwfb⟩ := hwfb
            rw [WFList_iff] at hwfb
            by_cases hlen : xs.length = ys.length
            · have h1 : assert_same_structure p (.set xs) (.set ys)
                  = assertList p xs ys := by
                simp [assert_same_structure, hpaf, hpbf, typeTag, hlen]
              have h2 : specSame p (.set xs) (.set ys) = specSameList p xs ys := by
                simp [specSame, hpaf, hpbf, hlen]
              rw [h1, h2]
              exact assertList_specSameList p xs ys hlen
                (fun x hx y hy => ih x hx y (hwfa x hx) (hwfb y hy))
            · have h1 : assert_same_structure p (.set xs) (.set ys)
                  = .error .assertionError := by
                simp [assert_same_structure, hpaf, hpbf, typeTag, hlen]
              have h2 : specSame p (.set xs) (.set ys) = false := by
                simp [specSame, hpaf, hpbf, hlen]
              simp [h1, h2]
          · simp [assert_of_tag_ne p _ b hpaf hpbf htag,
              specSame_of_tag_ne p _ b hpaf hpbf htag]
  | hnt n fs xs ih =>
      intro b hwfa hwfb
      by_cases hpa : p (.ntuple n fs xs) = true
      · by_cases hpb : p b = true
        · simp [assert_atomic p _ b hpa hpb, specSame_atomic p _ b hpa hpb]
        · have hpbf : p b = false := by simpa using hpb
          have hne : ¬ (p (Val.ntuple n fs xs) = p b) := by simp [hpa, hpbf]
          simp [assert_of_p_ne p _ b hne, specSame_of_p_ne p _ b hne]
      · have hpaf : p (.ntuple n fs xs) = false := by simpa using hpa
        by_cases hpb : p b = true
        · have hne : ¬ (p (Val.ntuple n fs xs) = p b) := by simp [hpaf, hpb]
          simp [assert_of_p_ne p _ b hne, specSame_of_p_ne p _ b hne]
        · have hpbf : p b = false := by simpa using hpb
          by_cases htag : typeTag (Val.ntuple n fs xs) = typeTag b
          · cases b <;> (try simp [typeTag] at htag)
            rename_i m gs ys
            obtain ⟨hn, hg⟩ := htag
            subst hn
            subst hg
            simp only [WF, hpaf, Bool.false_or, Bool.and_eq_true] at hwfa
            obtain ⟨_, hwfa⟩ := hwfa
            rw [WFList_iff] at hwfa
            simp only [WF, hpbf, Bool.false_or, Bool.and_eq_true] at hwfb
            obtain ⟨_, hwfb⟩ := hwfb
            rw [WFList_iff] at hwfb
            by_cases hlen : xs.length = ys.length
            · have h1 : assert_same_structure p (.ntuple n fs xs) (.ntuple n fs ys)
                  = assertList p xs ys := by
                simp [assert_same_structure, hpaf, hpbf, typeTag, hlen]
              have h2 : specSame p (.ntuple n fs xs) (.ntuple n fs ys)
                  = specSameList p xs ys := by
                simp [specSame, hpaf, hpbf, hlen]
              rw [h1, h2]
              exact assertList_specSameList p xs ys hlen
                (fun x hx y hy => ih x hx y (hwfa x hx) (hwfb y hy))
            · have h1 : assert_same_structure p (.ntuple n fs xs) (.ntuple n fs ys)
                  = .error .assertionError := by
                simp [assert_same_structure, hpaf, hpbf, typeTag, hlen]
              have h2 : specSame p (.ntuple n fs xs) (.ntuple n fs ys) = false := by
                simp [specSame, hpaf, hpbf, hlen]
              simp [h1, h2]
          · simp [assert_of_tag_ne p _ b hpaf hpbf htag,
              specSame_of_tag_ne p _ b hpaf hpbf htag]
  | hat n fs xs ih =>
      intro b hwfa hwfb
      by_cases hpa : p (.attrs n fs xs) = true
      · by_cases hpb : p b = true
        · simp [assert_atomic p _ b hpa hpb, specSame_atomic p _ b hpa hpb]
        · have hpbf : p b = false := by simpa using hpb
          have hne : ¬ (p (Val.attrs n fs xs) = p b) := by simp [hpa, hpbf]
          simp [assert_of_p_ne p _ b hne, specSame_of_p_ne p _ b hne]
      · have hpaf : p (.attrs n fs xs) = false := by simpa using hpa
        by_cases hpb : p b = true
        · have hne : ¬ (p (Val.attrs n fs xs) = p b) := by simp [hpaf, hpb]
          simp [assert_of_p_ne p _ b hne, specSame_of_p_ne p _ b hne]
        · have hpbf : p b = false := by simpa using hpb
          by_cases htag : typeTag (Val.attrs n fs xs) = typeTag b
          · cases b <;> (try simp [typeTag] at htag)
            rename_i m gs ys
            obtain ⟨hn, hg⟩ := htag
            subst hn
            subst hg
            simp only [WF, hpaf, Bool.false_or, Bool.and_eq_true] at hwfa
            obtain ⟨_, hwfa⟩ := hwfa
            rw [WFList_iff] at hwfa
            simp only [WF, hpbf, Bool.false_or, Bool.and_eq_true] at hwfb
            obtain ⟨_, hwfb⟩ := hwfb
            rw [WFList_iff] at hwfb
            by_cases hlen : xs.length = ys.length
            · have h1 : assert_same_structure p (.attrs n fs xs) (.attrs n fs ys)
                  = assertList p xs ys := by
                simp [assert_same_structure, hpaf, hpbf, typeTag, hlen]
              have h2 : specSame p (.attrs n fs xs) (.attrs n fs ys)
                  = specSameList p xs ys := by
                simp [specSame, hpaf, hpbf, hlen]
              rw [h1, h2]
              exact assertList_specSameList p xs ys hlen
                (fun x hx y hy => ih x hx y (hwfa x hx) (hwfb y hy))
            · have h1 : assert_same_structure p (.attrs n fs xs) (.attrs n fs ys)
                  = .error .assertionError := by
                simp [assert_same_structure, hpaf, hpbf, typeTag, hlen]
              have h2 : specSame p (.attrs n fs xs) (.attrs n fs ys) = false := by
                simp [specSame, hpaf, hpbf, hlen]
              simp [h1, h2]
          · simp [assert_of_tag_ne p _ b hpaf hpbf htag,
              specSame_of_tag_ne p _ b hpaf hpbf htag]
  | hdict xs ih =>
      intro b hwfa hwfb
      by_cases hpa : p (.dict xs) = true
      · by_cases hpb : p b = true
        · simp [assert_atomic p _ b hpa hpb, specSame_atomic p _ b hpa hpb]
        · have hpbf : p b = false := by simpa using hpb
          have hne : ¬ (p (Val.dict xs) = p b) := by simp [hpa, hpbf]
          simp [assert_of_p_ne p _ b hne, specSame_of_p_ne p _ b hne]
      · have hpaf : p (.dict xs) = false := by simpa using hpa
        by_cases hpb : p b = true
        · have hne : ¬ (p (Val.dict xs) = p b) := by simp [hpaf, hpb]
          simp [assert_of_p_ne p _ b hne, specSame_of_p_ne p _ b hne]
        · have hpbf : p b = false := by simpa using hpb
          by_cases htag : typeTag (Val.dict xs) = typeTag b
          · cases b <;> (try simp [typeTag] at htag)
            rename_i ys
            simp only [WF, hpaf, Bool.false_or, Bool.and_eq_true] at hwfa
            obtain ⟨⟨hs1, hnd1⟩, hwfa⟩ := hwfa
            rw [WFPairs_iff] at hwfa
            simp only [WF, hpbf, Bool.false_or, Bool.and_eq_true] at hwfb
            obtain ⟨⟨hs2, hnd2⟩, hwfb⟩ := hwfb
            rw [WFPairs_iff] at hwfb
            by_cases hkeys : (sortPairs xs).map Prod.fst = (sortPairs ys).map Prod.fst
            · have hlen : xs.length = ys.length := by
                have h3 := congrArg List.length hkeys
                simpa [length_sortPairs] using h3
              have h1 : assert_same_structure p (.dict xs) (.dict ys)
                  = assertPairs p (sortPairs xs) (sortPairs ys) := by
                simp [assert_same_structure, hpaf, hpbf, typeTag, hs1, hs2, hkeys, hlen]
              have h2 : specSame p (.dict xs) (.dict ys)
                  = specSamePairs p (sortPairs xs) (sortPairs ys) := by
                simp [specSame, hpaf, hpbf, hkeys]
              rw [h1, h2]
              exact assertPairs_specSamePairs p (sortPairs xs) (sortPairs ys)
                (by simp [length_sortPairs, hlen])
                (fun kv hkv kw hkw =>
                  ih kv (mem_sortPairs.mp hkv) kw.2
                    (hwfa kv (mem_sortPairs.mp hkv))
                    (hwfb kw (mem_sortPairs.mp hkw)))
            · have h1 : assert_same_structure p (.dict xs) (.dict ys)
                  = .error .assertionError := by
                simp [assert_same_structure, hpaf, hpbf, typeTag, hs1, hs2, hkeys]
              have h2 : specSame p (.dict xs) (.dict ys) = false := by
                simp [specSame, hpaf, hpbf, hkeys]
              simp [h1, h2]
          · simp [assert_of_tag_ne p _ b hpaf hpbf htag,
              specSame_of_tag_ne p _ b hpaf hpbf htag]

end Nifty

namespace Nifty

/-- C5 (counterexample to the final clause): under the default predicate the
null value is atomic, so comparing the non-null atomic `3` against `None`
finds both sides atomic and succeeds instead of failing. -/
theorem C5_counterexample :
    assert_same_structure is_scalar (.int 3) Val.none = .ok () := by
  simp [assert_same_structure, is_scalar]

/-- Witness for C5: the classification equivalence at a concrete pair. -/
theorem C5_assert_specSame_witness :
    assert_same_structure is_scalar (.list [.int 1]) (.list [.int 2, .int 3]) = .ok ()
      ↔ specSame is_scalar (.list [.int 1]) (.list [.int 2, .int 3]) = true :=
  C5_assert_specSame is_scalar (.list [.int 1]) (.list [.int 2, .int 3])
    (by simp [WF, WFList, is_scalar])
    (by simp [WF, WFList, is_scalar])

end Nifty

namespace Nifty

theorem specDepthList_map_snd (p : Val → Bool) (xs : List (Key × Val)) :
    specDepthList p (xs.map Prod.snd) = specDepthPairs p xs := by
  induction xs with
  | nil => simp [specDepthList, specDepthPairs]
  | cons kv kvs ih => simp [specDepthList, specDepthPairs, ih]

theorem specDepthPairs_perm (p : Val → Bool) {l1 l2 : List (Key × Val)}
    (h : List.Perm l1 l2) : specDepthPairs p l1 = specDepthPairs p l2 := by
  induction h with
  | nil => rfl
  | cons x h ih => simp [specDepthPairs, ih]
  | swap x y l =>
      simp only [specDepthPairs]
      exact max_left_comm _ _ _
  | trans h1 h2 ih1 ih2 => rw [ih1, ih2]

theorem depthList_spec (p : Val → Bool) :
    ∀ (xs : List Val), xs ≠ [] →
      (∀ v ∈ xs, ∀ d, depthHelper p v d = .ok (d + specDepth p v)) →
      ∀ d, depthList p xs d = .ok (d + specDepthList p xs) := by
  intro xs
  induction xs with
  | nil => intro h; exact absurd rfl h
  | cons v vs ih =>
      intro _ hv d
      cases vs with
      | nil =>
          have h := hv v (by simp) d
          simp [depthList, h, specDepthList, Nat.max_zero]
      | cons w ws =>
          have h := hv v (by simp) d
          have ht := ih (by simp) (fun x hx => hv x (by simp [hx])) d
          simp [depthList, h, ht, specDepthList]
          exact max_add_add_left d _ _

end Nifty

namespace Nifty

theorem depthHelper_spec (p : Val → Bool) (hp0 : p Val.none = true) :
    ∀ v, WF p v = true → nonEmptyStructs p v = true →
      ∀ d, depthHelper p v d = .ok (d + specDepth p v) := by
  intro v
  induction v using Val.my_ind with
  | hnone =>
      intro _ _ d
      simp [depthHelper, hp0, specDepth]
  | hint n =>
      intro hwf _ d
      have hp : p (.int n) = true := by simpa [WF] using hwf
      simp [depthHelper, hp, specDepth]
  | hstr s =>
      intro hwf _ d
      have hp : p (.str s) = true := by simpa [WF] using hwf
      simp [depthHelper, hp, specDepth]
  | hobj o =>
      intro hwf _ d
      have hp : p (.obj o) = true := by simpa [WF] using hwf
      simp [depthHelper, hp, specDepth]
  | hlist xs ih =>
      intro hwf hne d
      by_cases hp : p (.list xs) = true
      · simp [depthHelper, hp, specDepth]
      · have hpf : p (.list xs) = false := by simpa using hp
        simp only [WF, hpf, Bool.false_or] at hwf
        rw [WFList_iff] at hwf
        simp only [nonEmptyStructs, hpf, Bool.false_or, Bool.and_eq_true] at hne
        obtain ⟨hnem, hnel⟩ := hne
        rw [nonEmptyList_iff] at hnel
        have hxe : xs.isEmpty = false := by
          cases xs with
          | nil => simp at hnem
          | cons a l => rfl
        have hdl := depthList_spec p xs (by cases xs <;> simp_all)
          (fun w hw => ih w hw (hwf w hw) (hnel w hw)) (d + 1)
        have harith : d + 1 + specDepthList p xs = d + (1 + specDepthList p xs) := by omega
        simp [depthHelper, hpf, hxe, hdl, specDepth, harith]
  | htuple xs ih =>
      intro hwf hne d
      by_cases hp : p (.tuple xs) = true
      · simp [depthHelper, hp, specDepth]
      · have hpf : p (.tuple xs) = false := by simpa using hp
        simp only [WF, hpf, Bool.false_or] at hwf
        rw [WFList_iff] at hwf
        simp only [nonEmptyStructs, hpf, Bool.false_or, Bool.and_eq_true] at hne
        obtain ⟨hnem, hnel⟩ := hne
        rw [nonEmptyList_iff] at hnel
        have hxe : xs.isEmpty = false := by
          cases xs with
          | nil => simp at hnem
          | cons a l => rfl
        have hdl := depthList_spec p xs (by cases xs <;> simp_all)
          (fun w hw => ih w hw (hwf w hw) (hnel w hw)) (d + 1)
        have harith : d + 1 + specDepthList p xs = d + (1 + specDepthList p xs) := by omega
        simp [depthHelper, hpf, hxe, hdl, specDepth, harith]
  | hset xs ih =>
      intro hwf hne d
      by_cases hp : p (.set xs) = true
      · simp [depthHelper, hp, specDepth]
      · have hpf : p (.set xs) = false := by simpa using hp
        simp only [WF, hpf, Bool.false_or, Bool.and_eq_true] at hwf
        obtain ⟨_, hwfl⟩ := hwf
        rw [WFList_iff] at hwfl
        simp only [nonEmptyStructs, hpf, Bool.false_or, Bool.and_eq_true] at hne
        obtain ⟨hnem, hnel⟩ := hne
        rw [nonEmptyList_iff] at hnel
        have hxe : xs.isEmpty = false := by
          cases xs with
          | nil => simp at hnem
          | cons a l => rfl
        have hdl := depthList_spec p xs (by cases xs <;> simp_all)
          (fun w hw => ih w hw (hwfl w hw) (hnel w hw)) (d + 1)
        have harith : d + 1 + specDepthList p xs = d + (1 + specDepthList p xs) := by omega
        simp [depthHelper, hpf, hxe, hdl, specDepth, harith]
  | hnt n fs xs ih =>
      intro hwf hne d
      by_cases hp : p (.ntuple n fs xs) = true
      · simp [depthHelper, hp, specDepth]
      · have hpf : p (.ntuple n fs xs) = false := by simpa using hp
        simp only [WF, hpf, Bool.false_or, Bool.and_eq_true] at hwf
        obtain ⟨_, hwfl⟩ := hwf
        rw [WFList_iff] at hwfl
        simp only [nonEmptyStructs, hpf, Bool.false_or, Bool.and_eq_true] at hne
        obtain ⟨hnem, hnel⟩ := hne
        rw [nonEmptyList_iff] at hnel
        have hxe : xs.isEmpty = false := by
          cases xs with
          | nil => simp at hnem
          | cons a l => rfl
        have hdl := depthList_spec p xs (by cases xs <;> simp_all)
          (fun w hw => ih w hw (hwfl w hw) (hnel w hw)) (d + 1)
        have harith : d + 1 + specDepthList p xs = d + (1 + specDepthList p xs) := by omega
        simp [depthHelper, hpf, hxe, hdl, specDepth, harith]
  | hat n fs xs ih =>
      intro hwf hne d
      by_cases hp : p (.attrs n fs xs) = true
      · simp [depthHelper, hp, specDepth]
      · have hpf : p (.attrs n fs xs) = false := by simpa using hp
        simp only [WF, hpf, Bool.false_or, Bool.and_eq_true] at hwf
        obtain ⟨_, hwfl⟩ := hwf
        rw [WFList_iff] at hwfl
        simp only [nonEmptyStructs, hpf, Bool.false_or, Bool.and_eq_true] at hne
        obtain ⟨hnem, hnel⟩ := hne
        rw [nonEmptyList_iff] at hnel
        have hxe : xs.isEmpty = false := by
          cases xs with
          | nil => simp at hnem
          | cons a l => rfl
        have hdl := depthList_spec p xs (by cases xs <;> simp_all)
          (fun w hw => ih w hw (hwfl w hw) (hnel w hw)) (d + 1)
        have harith : d + 1 + specDepthList p xs = d + (1 + specDepthList p xs) := by omega
        simp [depthHelper, hpf, hxe, hdl, specDepth, harith]
  | hdict xs ih =>
      intro hwf hne d
      by_cases hp : p (.dict xs) = true
      · simp [depthHelper, hp, specDepth]
      · have hpf : p (.dict xs) = false := by simpa using hp
        simp only [WF, hpf, Bool.false_or, Bool.and_eq_true] at hwf
        obtain ⟨⟨hs, hnd⟩, hwfp⟩ := hwf
        rw [WFPairs_iff] at hwfp
        simp only [nonEmptyStructs, hpf, Bool.false_or, Bool.and_eq_true] at hne
        obtain ⟨hnem, hnep⟩ := hne
        rw [nonEmptyPairs_iff] at hnep
        have hxe : xs.isEmpty = false := by
          cases xs with
          | nil => simp at hnem
          | cons a l => rfl
        have hsn : (sortPairs xs).map Prod.snd ≠ [] := by
          have h1 : ((sortPairs xs).map Prod.snd).length = xs.length := by
            simp [length_sortPairs]
          intro hc
          rw [hc] at h1
          cases xs with
          | nil => simp at hnem
          | cons a l => simp at h1
        have hdl := depthList_spec p ((sortPairs xs).map Prod.snd) hsn
          (fun w hw => by
            obtain ⟨kv, hkv, rfl⟩ := List.mem_map.mp hw
            have hm := mem_sortPairs.mp hkv
            exact ih kv hm (hwfp kv hm) (hnep kv hm)) (d + 1)
        have hperm : specDepthList p ((sortPairs xs).map Prod.snd) = specDepthPairs p xs := by
          rw [specDepthList_map_snd]
          exact specDepthPairs_perm p (sortPairs_perm xs)
        have harith : d + 1 + specDepthPairs p xs = d + (1 + specDepthPairs p xs) := by omega
        rw [hperm] at hdl
        simp [depthHelper, hpf, hs, hxe, hdl, specDepth, harith]

/-- C6 (amended): for a traversal-well-formed structure whose traversed
containers are all non-empty, and a predicate accepting the null value, the
predicate returned by `has_max_depth(d, p)` decides exactly whether the
structure's maximum internal depth is at most `d`.  Totality on empty
containers is refuted separately: Python's `max([])` raises `ValueError`. -/
theorem C6_has_max_depth (d : Nat) (p : Val → Bool) (hp0 : p Val.none = true)
    (s : Val) (hwf : WF p s = true) (hne : nonEmptyStructs p s = true) :
    has_max_depth d p s = .ok (decide (specDepth p s ≤ d)) := by
  have h := depthHelper_spec p hp0 s hwf hne 0
  simp only [has_max_depth, h, Nat.zero_add]

/-- C6 (counterexample to totality): the empty list is well-classified and
shallow, but the helper takes `max` of an empty list of child depths, which
raises `ValueError`; the returned predicate is not total on empty
containers. -/
theorem C6_counterexample :
    has_max_depth 5 is_scalar (.list []) = .error .maxOfEmpty := by
  simp [has_max_depth, depthHelper, is_scalar]

/-- Witness for C6: the depth criterion at a concrete input. -/
theorem C6_has_max_depth_witness :
    has_max_depth 1 is_scalar (.list [.int 1])
      = .ok (decide (specDepth is_scalar (.list [.int 1]) ≤ 1)) :=
  C6_has_max_depth 1 is_scalar (by simp [is_scalar]) (.list [.int 1])
    (by simp [WF, WFList, is_scalar])
    (by simp [nonEmptyStructs, nonEmptyList, is_scalar])

end Nifty
